import Mathlib

/-!
Verification of the VerseSense stress-dictionary pipeline.

This file shallowly embeds the parts of the repository that the checked
claims are about:

* the unified data model (`src/data_management/transform/data_unifier.py`:
  `WordForm`, `LinguisticEntry`);
* the per-headword merge (`src/data_management/transform/merger.py`:
  `covers`, `merge_linguistic_dicts`, `per_lemma_merge`, and the k-way
  streaming merge of `merge_caches_and_save_lmdb`);
* the trie binary value decoder
  (`src/data_management/sources/trie_ua_stresses/trie_stress_parser.py`:
  `char_positions_to_vowel_indices`);
* the variant classifier
  (`src/data_management/export/export_training_db.py`:
  `determine_variant_type`);
* the runtime stress resolver (`src/nlp/pipeline/stress_resolver.py`);
* the special-case form merge of the kaikki source
  (`src/data_management/sources/kaikki/kaikki_parser.py`:
  `merge_wordforms`), and the error-handling shape of the kaikki and txt
  source loops.

Python dictionaries are embedded as association lists in insertion order
(Python 3.7+ dicts preserve insertion order, and msgpack/json serialise
them in that order, so list order is the faithful notion for the
"byte-equivalent output" questions below).  `Dict[str, Any]` payloads are
embedded with `String` values.  Python floats in the resolver's scoring
are embedded as rationals: every constant involved (0.4, 0.5, 0.8, and
feature-count quotients) is handled exactly by the claims at issue.
-/

/-- Universal POS tags, from `data_unifier.UPOS`. -/
inductive UPOS where
  | ADJ | ADP | ADV | AUX | CCONJ | DET | INTJ | NOUN | NUM | PART
  | PRON | PROPN | PUNCT | SCONJ | SYM | VERB | X
deriving DecidableEq, Repr

/-- Morphological feature keys, from `data_unifier.UDFeatKey`. -/
inductive UDFeatKey where
  | Gender | Animacy | Number | Case | Definite | Degree | VerbForm
  | Mood | Tense | Aspect | Voice | Evident | Polarity | Person
  | Polite | Clusivity | PronType | NumType | Poss | Reflex
  | Foreign | Abbr | Typo
deriving DecidableEq, Repr

/-- A translation record, from `data_unifier.TranslationEntry` (a TypedDict
with all keys optional). -/
structure TranslationEntry where
  lang : Option String
  text : Option String
  sense : Option String
deriving DecidableEq, Repr

/-- An etymology/inflection template record, from
`data_unifier.EtymologyTemplate` / `InflectionTemplate`; the `args`
dictionary payload is embedded as a string-valued association list. -/
structure TemplateEntry where
  name : Option String
  args : List (String × String)
deriving DecidableEq, Repr

/-- One word form, from `data_unifier.WordForm` (field for field, in the
source's declaration order; the source's `lemma` field is spelled
`lemma_` here because `lemma` is a Lean keyword). -/
structure WordForm where
  form : String
  stress_indices : List Nat
  pos : UPOS
  feats : List (UDFeatKey × String)
  lemma_ : Option String
  main_definition : Option String
  alt_definitions : Option (List String)
  translations : Option (List TranslationEntry)
  etymology_templates : Option (List TemplateEntry)
  etymology_number : Option Int
  tags : Option (List String)
  examples : List String
  roman : Option String
  ipa : Option String
  etymology : Option String
  inflection_templates : Option (List TemplateEntry)
  categories : Option (List String)
  sense_id : Option String
deriving DecidableEq, Repr

/-- One dictionary entry, from `data_unifier.LinguisticEntry`. -/
structure LinguisticEntry where
  word : String
  forms : List WordForm
  possible_stress_indices : List (List Nat)
  meta : List (String × String)
deriving DecidableEq, Repr

/-- Python's `sorted` on a list of numbers. -/
def sortNat (l : List Nat) : List Nat := l.insertionSort (· ≤ ·)

/-- The merger's `covers(form_a, form_b)` (`merger.py` lines 91-95): every
field of `form_b.model_dump()` is present and equal in
`form_a.model_dump()`.  Both dumps carry exactly the fields of `WordForm`,
so this is the conjunction of the 18 field equations. -/
@[reducible] def covers (a b : WordForm) : Prop :=
  a.form = b.form ∧ a.stress_indices = b.stress_indices ∧ a.pos = b.pos ∧
  a.feats = b.feats ∧ a.lemma_ = b.lemma_ ∧
  a.main_definition = b.main_definition ∧
  a.alt_definitions = b.alt_definitions ∧ a.translations = b.translations ∧
  a.etymology_templates = b.etymology_templates ∧
  a.etymology_number = b.etymology_number ∧ a.tags = b.tags ∧
  a.examples = b.examples ∧ a.roman = b.roman ∧ a.ipa = b.ipa ∧
  a.etymology = b.etymology ∧
  a.inflection_templates = b.inflection_templates ∧
  a.categories = b.categories ∧ a.sense_id = b.sense_id

/-- `covers` compares every field of the dump, `stress_indices` included,
so it is exactly structural equality of the two forms. -/
theorem covers_iff_eq (a b : WordForm) : covers a b ↔ a = b := by
  constructor
  · rintro ⟨h1, h2, h3, h4, h5, h6, h7, h8, h9, h10, h11, h12, h13, h14,
      h15, h16, h17, h18⟩
    cases a; cases b; simp_all
  · rintro rfl; exact ⟨rfl, rfl, rfl, rfl, rfl, rfl, rfl, rfl, rfl, rfl,
      rfl, rfl, rfl, rfl, rfl, rfl, rfl, rfl⟩

/-- One step of the inner form-merge loop of `merge_linguistic_dicts`
(`merger.py` lines 106-120): scan the existing forms; at the first form
that `covers` the new one or is covered by it, either replace it in place
(when the new form covers it) or drop the new form; if no form matches,
append the new form at the end. -/
def mergeFormStep : List WordForm → WordForm → List WordForm
  | [], wf => [wf]
  | ef :: rest, wf =>
    if covers wf ef then wf :: rest
    else if covers ef wf then ef :: rest
    else ef :: mergeFormStep rest wf

/-- The form-merge loop: fold every incoming form into the existing list. -/
def mergeForms (existing incoming : List WordForm) : List WordForm :=
  incoming.foldl mergeFormStep existing

/-- One step of the `possible_stress_indices` merge (`merger.py` lines
123-127): append the sorted incoming array unless an array with the same
sorted value is already present. -/
def psiStep (psi : List (List Nat)) (arr : List Nat) : List (List Nat) :=
  if ∃ x ∈ psi, sortNat x = sortNat arr then psi else psi ++ [sortNat arr]

/-- The `possible_stress_indices` merge: fold `psiStep` over the incoming
arrays. -/
def mergePsi (psi incoming : List (List Nat)) : List (List Nat) :=
  incoming.foldl psiStep psi

/-- Replace the value stored under key `k` (first occurrence), keeping its
position — Python's `d[k] = v` on a dict that already holds `k`. -/
def assocSet {β : Type} : List (String × β) → String → β → List (String × β)
  | [], _, _ => []
  | (k', v') :: rest, k, v =>
    if k' = k then (k', v) :: rest else (k', v') :: assocSet rest k v

/-- Python's `d[k] = v`: overwrite in place when the key exists, append
otherwise. -/
def dictAssign (d : List (String × String)) (k v : String) :
    List (String × String) :=
  if k ∈ d.map Prod.fst then assocSet d k v else d ++ [(k, v)]

/-- Python's `a.update(b)` on dicts: assign every item of `b` in order. -/
def dictUpdate (a b : List (String × String)) : List (String × String) :=
  b.foldl (fun acc p => dictAssign acc p.1 p.2) a

/-- The per-headword merge of one incoming entry into the accumulated one
(`merger.py` lines 103-129): merge the form lists, merge the
`possible_stress_indices`, shallow-merge `meta`; the accumulated `word`
key is kept. -/
def mergeInto (acc e : LinguisticEntry) : LinguisticEntry :=
  { word := acc.word
    forms := mergeForms acc.forms e.forms
    possible_stress_indices :=
      mergePsi acc.possible_stress_indices e.possible_stress_indices
    meta := dictUpdate acc.meta e.meta }

/-- `per_lemma_merge(lemma, entries)` (`merger.py` lines 832-882): the
first entry is deep-copied, every later entry is merged in; an empty list
yields Python's `None`. -/
def per_lemma_merge : List LinguisticEntry → Option LinguisticEntry
  | [] => none
  | e :: rest => some (rest.foldl mergeInto e)

/-- One item step of `merge_linguistic_dicts` (`merger.py` lines 97-129):
a lemma not yet present is inserted (deep copy), an existing one is merged
into in place. -/
def mergeDictStep (merged : List (String × LinguisticEntry))
    (item : String × LinguisticEntry) : List (String × LinguisticEntry) :=
  match List.lookup item.1 merged with
  | none => merged ++ [item]
  | some old => assocSet merged item.1 (mergeInto old item.2)

/-- `merge_linguistic_dicts(dicts)` (`merger.py` lines 70-131), with each
Python dict embedded as an association list in insertion order. -/
def merge_linguistic_dicts (dicts : List (List (String × LinguisticEntry))) :
    List (String × LinguisticEntry) :=
  dicts.foldl (fun merged d => d.foldl mergeDictStep merged) []

/-- The spec scenario's form `{pos=NOUN, feats={}, stress=[0]}` under
headword `x`, every optional field absent. -/
def formA : WordForm :=
  { form := "x", stress_indices := [0], pos := .NOUN, feats := []
    lemma_ := none, main_definition := none, alt_definitions := none
    translations := none, etymology_templates := none
    etymology_number := none, tags := none, examples := [], roman := none
    ipa := none, etymology := none, inflection_templates := none
    categories := none, sense_id := none }

/-- The same form with `stress=[1]` instead. -/
def formB : WordForm := { formA with stress_indices := [1] }

/-- Source A's entry for headword `x`. -/
def entryA : LinguisticEntry :=
  { word := "x", forms := [formA], possible_stress_indices := [[0]]
    meta := [] }

/-- Source B's entry: identical except the single form carries stress 1. -/
def entryB : LinguisticEntry :=
  { word := "x", forms := [formB], possible_stress_indices := [[1]]
    meta := [] }

/-- C1 counterexample: merging the spec's scenario inputs — two entries for
headword `x` whose single forms agree on every field except
`stress_indices` ([0] versus [1]) — produces TWO merged forms with
stresses [0] and [1], not one form with the union [0, 1]: `covers` does
not ignore `stress_indices`. -/
theorem c1_counterexample :
    (merge_linguistic_dicts [[("x", entryA)], [("x", entryB)]]).map
      (fun p => (p.1, p.2.forms.map (fun f => f.stress_indices)))
      = [("x", [[0], [1]])] := by decide

/-- C1 amended: the merge's `covers` relation compares all fields of the
dumps including `stress_indices`, so it is exactly form equality; merging
the scenario inputs therefore keeps both forms as distinct forms (no
stress union at the form level), while the union of the stress arrays
shows up only in the entry-level `possible_stress_indices`. -/
theorem c1_amended_covers_is_equality :
    (∀ a b : WordForm, covers a b ↔ a = b) ∧
    merge_linguistic_dicts [[("x", entryA)], [("x", entryB)]] =
      [("x", { word := "x", forms := [formA, formB]
               possible_stress_indices := [[0], [1]], meta := [] })] :=
  ⟨covers_iff_eq, by decide⟩

/-- C4 counterexample: the merge is not commutative — swapping the order
of the two input dictionaries for headword `x` changes the merged result
(the form list and `possible_stress_indices` come out in a different
order), so merging in "any order" does not yield identical results. -/
theorem c4_counterexample :
    merge_linguistic_dicts [[("x", entryA)], [("x", entryB)]] ≠
      merge_linguistic_dicts [[("x", entryB)], [("x", entryA)]] := by decide

/-- Since `covers` is equality, one merge-loop step either leaves the list
unchanged (the form is already present; the in-place replacement writes an
equal value) or appends the new form. -/
theorem mergeFormStep_eq (l : List WordForm) (wf : WordForm) :
    mergeFormStep l wf = if wf ∈ l then l else l ++ [wf] := by
  induction l with
  | nil => simp [mergeFormStep]
  | cons ef rest ih =>
    by_cases h : covers wf ef
    · have he : wf = ef := (covers_iff_eq wf ef).mp h
      subst he
      rw [mergeFormStep, if_pos h]
      simp
    · have hne : wf ≠ ef := fun hq => h ((covers_iff_eq wf ef).mpr hq)
      have h2 : ¬ covers ef wf := fun hc =>
        hne ((covers_iff_eq ef wf).mp hc).symm
      rw [mergeFormStep, if_neg h, if_neg h2, ih]
      by_cases hm : wf ∈ rest
      · simp [hm, List.mem_cons, hne]
      · simp [hm, List.mem_cons, hne]

/-- Membership after one merge-loop step. -/
theorem mem_mergeFormStep (x wf : WordForm) (l : List WordForm) :
    x ∈ mergeFormStep l wf ↔ x ∈ l ∨ x = wf := by
  rw [mergeFormStep_eq]
  by_cases h : wf ∈ l
  · rw [if_pos h]
    constructor
    · exact Or.inl
    · rintro (hx | rfl)
      · exact hx
      · exact h
  · rw [if_neg h]
    simp [List.mem_append]

theorem mergeForms_cons (a b : List WordForm) (x : WordForm) :
    mergeForms a (x :: b) = mergeForms (mergeFormStep a x) b := rfl

theorem mergeForms_append (a b c : List WordForm) :
    mergeForms a (b ++ c) = mergeForms (mergeForms a b) c := by
  simp [mergeForms, List.foldl_append]

/-- Membership in a merged form list is membership in either input. -/
theorem mem_mergeForms (x : WordForm) (a b : List WordForm) :
    x ∈ mergeForms a b ↔ x ∈ a ∨ x ∈ b := by
  induction b generalizing a with
  | nil => simp [mergeForms]
  | cons y b ih =>
    rw [mergeForms_cons, ih, mem_mergeFormStep]
    rw [or_assoc]
    simp [List.mem_cons]

/-- Folding into `a` commutes with a merge-loop step on the incoming side. -/
theorem mergeForms_mergeFormStep (a b : List WordForm) (x : WordForm) :
    mergeForms a (mergeFormStep b x) = mergeFormStep (mergeForms a b) x := by
  rw [mergeFormStep_eq b x]
  by_cases h : x ∈ b
  · rw [if_pos h, mergeFormStep_eq,
      if_pos ((mem_mergeForms x a b).mpr (Or.inr h))]
  · rw [if_neg h, mergeForms_append]
    rfl

/-- The form merge is associative. -/
theorem mergeForms_assoc (a b c : List WordForm) :
    mergeForms (mergeForms a b) c = mergeForms a (mergeForms b c) := by
  induction c generalizing b with
  | nil => rfl
  | cons x c ih =>
    rw [mergeForms_cons, mergeForms_cons, ← ih, mergeForms_mergeFormStep]

/-- Sorting an already produced sort result is the identity. -/
theorem sortNat_idem (l : List Nat) : sortNat (sortNat l) = sortNat l :=
  List.Sorted.insertionSort_eq (List.sorted_insertionSort _ l)

/-- Which sorted values are represented after one `psiStep`. -/
theorem psiStep_image (p : List (List Nat)) (y : List Nat) (s : List Nat) :
    (∃ x ∈ psiStep p y, sortNat x = s) ↔
      (∃ x ∈ p, sortNat x = s) ∨ s = sortNat y := by
  rw [psiStep]
  by_cases h : ∃ x ∈ p, sortNat x = sortNat y
  · rw [if_pos h]
    constructor
    · exact Or.inl
    · rintro (hx | rfl)
      · exact hx
      · exact h
  · rw [if_neg h]
    constructor
    · rintro ⟨x, hx, rfl⟩
      rcases List.mem_append.mp hx with hx | hx
      · exact Or.inl ⟨x, hx, rfl⟩
      · simp only [List.mem_singleton] at hx
        subst hx
        exact Or.inr (sortNat_idem y)
    · rintro (⟨x, hx, rfl⟩ | rfl)
      · exact ⟨x, List.mem_append.mpr (Or.inl hx), rfl⟩
      · exact ⟨sortNat y, List.mem_append.mpr (Or.inr (by simp)),
          sortNat_idem y⟩

theorem mergePsi_cons (p q : List (List Nat)) (y : List Nat) :
    mergePsi p (y :: q) = mergePsi (psiStep p y) q := rfl

theorem mergePsi_append (p q r : List (List Nat)) :
    mergePsi p (q ++ r) = mergePsi (mergePsi p q) r := by
  simp [mergePsi, List.foldl_append]

/-- Which sorted values are represented after a full psi merge. -/
theorem mergePsi_image (p q : List (List Nat)) (s : List Nat) :
    (∃ x ∈ mergePsi p q, sortNat x = s) ↔
      (∃ x ∈ p, sortNat x = s) ∨ (∃ x ∈ q, sortNat x = s) := by
  induction q generalizing p with
  | nil => simp [mergePsi]
  | cons y q ih =>
    rw [mergePsi_cons, ih, psiStep_image]
    simp only [List.mem_cons]
    constructor
    · rintro ((hx | rfl) | hx)
      · exact Or.inl hx
      · exact Or.inr ⟨y, Or.inl rfl, rfl⟩
      · rcases hx with ⟨x, hx, rfl⟩
        exact Or.inr ⟨x, Or.inr hx, rfl⟩
    · rintro (hx | ⟨x, (rfl | hx), rfl⟩)
      · exact Or.inl (Or.inl hx)
      · exact Or.inl (Or.inr rfl)
      · exact Or.inr ⟨x, hx, rfl⟩

/-- A `psiStep` with an already sorted array equals the step with the raw
array. -/
theorem psiStep_sortNat (p : List (List Nat)) (y : List Nat) :
    psiStep p (sortNat y) = psiStep p y := by
  simp [psiStep, sortNat_idem]

/-- Folding into `p` commutes with a psi step on the incoming side. -/
theorem mergePsi_psiStep (p q : List (List Nat)) (y : List Nat) :
    mergePsi p (psiStep q y) = psiStep (mergePsi p q) y := by
  by_cases h : ∃ x ∈ q, sortNat x = sortNat y
  · rw [psiStep, if_pos h, psiStep,
      if_pos ((mergePsi_image p q (sortNat y)).mpr (Or.inr h))]
  · rw [psiStep, if_neg h, mergePsi_append]
    show psiStep (mergePsi p q) (sortNat y) = _
    rw [psiStep_sortNat]

/-- The `possible_stress_indices` merge is associative. -/
theorem mergePsi_assoc (p q r : List (List Nat)) :
    mergePsi (mergePsi p q) r = mergePsi p (mergePsi q r) := by
  induction r generalizing q with
  | nil => rfl
  | cons y r ih =>
    rw [mergePsi_cons, mergePsi_cons, ← ih, mergePsi_psiStep]

/-- Overwriting a value in place does not change the key sequence. -/
theorem assocSet_keys {β : Type} (d : List (String × β)) (k : String)
    (v : β) : (assocSet d k v).map Prod.fst = d.map Prod.fst := by
  induction d with
  | nil => rfl
  | cons p rest ih =>
    obtain ⟨k', v'⟩ := p
    by_cases h : k' = k <;> simp [assocSet, h, ih]

/-- Overwriting an absent key does nothing. -/
theorem assocSet_of_not_mem {β : Type} (d : List (String × β)) (k : String)
    (v : β) (h : k ∉ d.map Prod.fst) : assocSet d k v = d := by
  induction d with
  | nil => rfl
  | cons p rest ih =>
    obtain ⟨k', v'⟩ := p
    simp only [List.map_cons, List.mem_cons] at h
    push_neg at h
    have hne : ¬ (k' = k) := fun hq => h.1 hq.symm
    rw [assocSet, if_neg hne, ih h.2]

/-- Overwriting distributes over an append by which half holds the key. -/
theorem assocSet_append {β : Type} (c d : List (String × β)) (k : String)
    (v : β) :
    assocSet (c ++ d) k v =
      if k ∈ c.map Prod.fst then assocSet c k v ++ d
      else c ++ assocSet d k v := by
  induction c with
  | nil => simp [assocSet]
  | cons p rest ih =>
    obtain ⟨k', v'⟩ := p
    by_cases h : k' = k
    · simp [assocSet, h]
    · have hks : ¬ (k = k') := fun hq => h hq.symm
      by_cases hm : k ∈ rest.map Prod.fst <;>
        simp [assocSet, h, hm, ih, List.cons_append, hks]

/-- Two successive overwrites of the same key keep only the second. -/
theorem assocSet_assocSet {β : Type} (d : List (String × β)) (k : String)
    (v0 v : β) : assocSet (assocSet d k v0) k v = assocSet d k v := by
  induction d with
  | nil => rfl
  | cons p rest ih =>
    obtain ⟨k', v'⟩ := p
    by_cases h : k' = k <;> simp [assocSet, h, ih]

/-- Overwrites of distinct keys commute. -/
theorem assocSet_comm {β : Type} (d : List (String × β)) (k k1 : String)
    (v v1 : β) (hne : k ≠ k1) :
    assocSet (assocSet d k v) k1 v1 = assocSet (assocSet d k1 v1) k v := by
  induction d with
  | nil => rfl
  | cons p rest ih =>
    obtain ⟨k', v'⟩ := p
    by_cases h : k' = k
    · have h1 : ¬ (k' = k1) := fun hq => hne (h.symm.trans hq)
      simp [assocSet, h, h1, hne]
    · by_cases h1 : k' = k1
      · have h2 : ¬ (k1 = k) := fun hq => hne hq.symm
        simp [assocSet, h, h1, h2]
      · simp [assocSet, h, h1, ih]

/-- The key sequence after one Python dict assignment. -/
theorem dictAssign_keys (d : List (String × String)) (k v : String) :
    (dictAssign d k v).map Prod.fst =
      if k ∈ d.map Prod.fst then d.map Prod.fst
      else d.map Prod.fst ++ [k] := by
  by_cases h : k ∈ d.map Prod.fst
  · rw [dictAssign, if_pos h, if_pos h, assocSet_keys]
  · rw [dictAssign, if_neg h, if_neg h]
    simp

/-- Key membership after one dict assignment. -/
theorem mem_dictAssign_keys (d : List (String × String)) (k v k2 : String) :
    k2 ∈ (dictAssign d k v).map Prod.fst ↔
      k2 ∈ d.map Prod.fst ∨ k2 = k := by
  rw [dictAssign_keys]
  by_cases h : k ∈ d.map Prod.fst
  · rw [if_pos h]
    constructor
    · exact Or.inl
    · rintro (hx | rfl)
      · exact hx
      · exact h
  · rw [if_neg h]
    simp

/-- A dict assignment keeps the keys duplicate-free. -/
theorem dictAssign_nodup (d : List (String × String)) (k v : String)
    (h : (d.map Prod.fst).Nodup) :
    ((dictAssign d k v).map Prod.fst).Nodup := by
  rw [dictAssign_keys]
  by_cases hm : k ∈ d.map Prod.fst
  · rwa [if_pos hm]
  · rw [if_neg hm]
    simp [List.nodup_append, h, hm]

theorem dictUpdate_cons (a b : List (String × String)) (k v : String) :
    dictUpdate a ((k, v) :: b) = dictUpdate (dictAssign a k v) b := rfl

theorem dictUpdate_append (a b c : List (String × String)) :
    dictUpdate a (b ++ c) = dictUpdate (dictUpdate a b) c := by
  simp [dictUpdate, List.foldl_append]

/-- Key membership after a full dict update. -/
theorem mem_dictUpdate_keys (a b : List (String × String)) (k2 : String) :
    k2 ∈ (dictUpdate a b).map Prod.fst ↔
      k2 ∈ a.map Prod.fst ∨ k2 ∈ b.map Prod.fst := by
  induction b generalizing a with
  | nil => simp [dictUpdate]
  | cons p b ih =>
    obtain ⟨k, v⟩ := p
    rw [dictUpdate_cons, ih, mem_dictAssign_keys]
    simp only [List.map_cons, List.mem_cons]
    constructor
    · rintro ((hx | rfl) | hx)
      · exact Or.inl hx
      · exact Or.inr (Or.inl rfl)
      · exact Or.inr (Or.inr hx)
    · rintro (hx | (rfl | hx))
      · exact Or.inl (Or.inl hx)
      · exact Or.inl (Or.inr rfl)
      · exact Or.inr hx

/-- Updating with keys other than `k` commutes with an in-place overwrite
of `k`. -/
theorem dictUpdate_assocSet_of_not_mem (c b : List (String × String))
    (k v : String) (h : k ∉ b.map Prod.fst) :
    dictUpdate (assocSet c k v) b = assocSet (dictUpdate c b) k v := by
  induction b generalizing c with
  | nil => rfl
  | cons p b ih =>
    obtain ⟨k1, v1⟩ := p
    simp only [List.map_cons, List.mem_cons] at h
    push_neg at h
    have hne : k1 ≠ k := fun hq => h.1 hq.symm
    rw [dictUpdate_cons, dictUpdate_cons, ← ih _ h.2]
    congr 1
    rw [dictAssign, dictAssign, assocSet_keys]
    by_cases hm : k1 ∈ c.map Prod.fst
    · rw [if_pos hm, if_pos hm, assocSet_comm _ _ _ _ _ (fun hq => hne hq.symm)]
    · rw [if_neg hm, if_neg hm, assocSet_append]
      by_cases hk : k ∈ c.map Prod.fst
      · rw [if_pos hk]
      · rw [if_neg hk, assocSet_of_not_mem c k v hk]
        simp [assocSet, hne]

/-- Assigning `k` and then overwriting `k` in place equals assigning the
final value directly. -/
theorem assocSet_dictAssign (a : List (String × String)) (k v0 v : String) :
    assocSet (dictAssign a k v0) k v = dictAssign a k v := by
  by_cases h : k ∈ a.map Prod.fst
  · rw [dictAssign, if_pos h, dictAssign, if_pos h, assocSet_assocSet]
  · rw [dictAssign, if_neg h, dictAssign, if_neg h, assocSet_append,
      if_neg h]
    simp [assocSet]

/-- For a duplicate-free dict `b` holding `k`, updating with `b` after an
in-place overwrite of `k` equals updating first and overwriting after. -/
theorem dictUpdate_assocSet (a b : List (String × String)) (k v : String)
    (hnd : (b.map Prod.fst).Nodup) (hk : k ∈ b.map Prod.fst) :
    dictUpdate a (assocSet b k v) = assocSet (dictUpdate a b) k v := by
  induction b generalizing a with
  | nil => simp at hk
  | cons p b ih =>
    obtain ⟨k0, v0⟩ := p
    simp only [List.map_cons, List.nodup_cons] at hnd
    by_cases h : k0 = k
    · subst h
      rw [assocSet, if_pos rfl, dictUpdate_cons, dictUpdate_cons,
        ← dictUpdate_assocSet_of_not_mem _ _ _ _ hnd.1,
        assocSet_dictAssign]
    · have hkb : k ∈ b.map Prod.fst := by
        simp only [List.map_cons, List.mem_cons] at hk
        rcases hk with hk | hk
        · exact absurd hk.symm h
        · exact hk
      rw [assocSet, if_neg h, dictUpdate_cons, dictUpdate_cons,
        ih _ hnd.2 hkb]

/-- For a duplicate-free dict `b`, one trailing assignment commutes out of
the update. -/
theorem dictUpdate_dictAssign (a b : List (String × String)) (k v : String)
    (hnd : (b.map Prod.fst).Nodup) :
    dictUpdate a (dictAssign b k v) = dictAssign (dictUpdate a b) k v := by
  by_cases h : k ∈ b.map Prod.fst
  · rw [dictAssign, if_pos h, dictUpdate_assocSet a b k v hnd h, dictAssign,
      if_pos ((mem_dictUpdate_keys a b k).mpr (Or.inr h))]
  · rw [dictAssign, if_neg h, dictUpdate_append]
    rfl

/-- Python's dict update is associative when the middle dict's keys are
duplicate-free (always true of a real Python dict). -/
theorem dictUpdate_assoc (a b c : List (String × String))
    (hnd : (b.map Prod.fst).Nodup) :
    dictUpdate (dictUpdate a b) c = dictUpdate a (dictUpdate b c) := by
  induction c generalizing b with
  | nil => rfl
  | cons p c ih =>
    obtain ⟨k, v⟩ := p
    rw [dictUpdate_cons, dictUpdate_cons,
      ← ih (dictAssign b k v) (dictAssign_nodup b k v hnd),
      dictUpdate_dictAssign a b k v hnd]

/-- The per-headword merge is associative (middle entry's meta keys
duplicate-free, as every Python dict's are). -/
theorem mergeInto_assoc (a b c : LinguisticEntry)
    (hb : (b.meta.map Prod.fst).Nodup) :
    mergeInto (mergeInto a b) c = mergeInto a (mergeInto b c) := by
  simp only [mergeInto, mergeForms_assoc, mergePsi_assoc,
    dictUpdate_assoc _ _ _ hb]

/-- C4 amended: the per-headword merge is associative but not commutative.
Merging `[a, b, c]` in one pass — as `per_lemma_merge` and
`merge_linguistic_dicts` both do, by a left fold — equals merging
`(a merged b)` with `c`, and regrouping as `a merged (b merged c)` yields
the same entry (given duplicate-free meta keys, which Python dicts
guarantee); input ORDER however changes the result, as the recorded
counterexample shows. -/
theorem c4_amended_merge_left_grouping :
    ∀ (a b c : LinguisticEntry) (k : String),
      (b.meta.map Prod.fst).Nodup →
      mergeInto (mergeInto a b) c = mergeInto a (mergeInto b c) ∧
      per_lemma_merge [a, b, c] = some (mergeInto (mergeInto a b) c) ∧
      merge_linguistic_dicts [[(k, a)], [(k, b)], [(k, c)]] =
        [(k, mergeInto (mergeInto a b) c)] := by
  intro a b c k hb
  refine ⟨mergeInto_assoc a b c hb, rfl, ?_⟩
  simp [merge_linguistic_dicts, mergeDictStep, List.lookup, assocSet]

/-- Witness for the amended C4 theorem at entries of the merge scenario. -/
theorem c4_amended_witness :
    (entryB.meta.map Prod.fst).Nodup ∧
    (mergeInto (mergeInto entryA entryB) entryA =
        mergeInto entryA (mergeInto entryB entryA) ∧
      per_lemma_merge [entryA, entryB, entryA] =
        some (mergeInto (mergeInto entryA entryB) entryA) ∧
      merge_linguistic_dicts
          [[("x", entryA)], [("x", entryB)], [("x", entryA)]] =
        [("x", mergeInto (mergeInto entryA entryB) entryA)]) :=
  ⟨by decide,
    c4_amended_merge_left_grouping entryA entryB entryA "x" (by decide)⟩

/-- The JSON key string of each UD feature key, as `json.dumps` with
`sort_keys=True` orders the `feats` dict in `determine_variant_type`. -/
def featKeyStr : UDFeatKey → String
  | .Gender => "Gender"
  | .Animacy => "Animacy"
  | .Number => "Number"
  | .Case => "Case"
  | .Definite => "Definite"
  | .Degree => "Degree"
  | .VerbForm => "VerbForm"
  | .Mood => "Mood"
  | .Tense => "Tense"
  | .Aspect => "Aspect"
  | .Voice => "Voice"
  | .Evident => "Evident"
  | .Polarity => "Polarity"
  | .Person => "Person"
  | .Polite => "Polite"
  | .Clusivity => "Clusivity"
  | .PronType => "PronType"
  | .NumType => "NumType"
  | .Poss => "Poss"
  | .Reflex => "Reflex"
  | .Foreign => "Foreign"
  | .Abbr => "Abbr"
  | .Typo => "Typo"

/-- Canonical key order for a feats dict, mirroring
`json.dumps(..., sort_keys=True)`. -/
def sortFeats (feats : List (UDFeatKey × String)) :
    List (UDFeatKey × String) :=
  feats.insertionSort (fun a b => featKeyStr a.1 ≤ featKeyStr b.1)

/-- The `pos_feats_json` fingerprint of `determine_variant_type`
(`export_training_db.py` lines 150-154): the serialised (POS, sorted
feats) pair, embedded as the pair itself (the JSON dump is injective in
it). -/
def fingerprint (f : WordForm) : UPOS × List (UDFeatKey × String) :=
  (f.pos, sortFeats f.feats)

/-- `definition = form.main_definition or ""` of `determine_variant_type`. -/
def defString (f : WordForm) : String := f.main_definition.getD ""

/-- `stress_key = tuple(sorted(form.stress_indices or []))`. -/
def stressKey (f : WordForm) : List Nat := sortNat f.stress_indices

/-- `StressTrainingDBExporter.determine_variant_type`
(`export_training_db.py` lines 113-190): group by sorted stress tuple;
one group → `single`; otherwise compare the distinct (POS, feats)
fingerprints and distinct definitions across all forms (the code unions
the per-group sets, which is the set over all forms). -/
def determine_variant_type (forms : List WordForm) : String :=
  if forms = [] then "single"
  else if (forms.map stressKey).dedup.length ≤ 1 then "single"
  else if (forms.map fingerprint).dedup.length = 1 ∧
      (forms.map defString).dedup.length ≤ 1 then "free_variant"
  else if (forms.map fingerprint).dedup.length = 1 ∧
      1 < (forms.map defString).dedup.length then "grammatical_homonym"
  else "morphological_variant"

/-- C10: the variant classifier on the empty form list returns `single`
(the `if not forms` guard) instead of raising. -/
theorem c10_empty_forms_single : determine_variant_type [] = "single" := rfl

/-- C6: on every non-empty form list the classifier deterministically
returns exactly one of the four labels by the spec's rules: one distinct
sorted stress tuple → `single`; several stress tuples with one
(POS, feats) fingerprint and at most one distinct definition →
`free_variant`; one fingerprint and more than one definition →
`grammatical_homonym`; more than one fingerprint →
`morphological_variant`. -/
theorem c6_variant_classifier_rules :
    ∀ forms : List WordForm, forms ≠ [] →
      (((forms.map stressKey).dedup.length = 1 →
          determine_variant_type forms = "single") ∧
       (1 < (forms.map stressKey).dedup.length →
          (forms.map fingerprint).dedup.length = 1 →
          (forms.map defString).dedup.length ≤ 1 →
          determine_variant_type forms = "free_variant") ∧
       (1 < (forms.map stressKey).dedup.length →
          (forms.map fingerprint).dedup.length = 1 →
          1 < (forms.map defString).dedup.length →
          determine_variant_type forms = "grammatical_homonym") ∧
       (1 < (forms.map stressKey).dedup.length →
          1 < (forms.map fingerprint).dedup.length →
          determine_variant_type forms = "morphological_variant") ∧
       (determine_variant_type forms = "single" ∨
        determine_variant_type forms = "free_variant" ∨
        determine_variant_type forms = "grammatical_homonym" ∨
        determine_variant_type forms = "morphological_variant")) := by
  intro forms h
  refine ⟨?_, ?_, ?_, ?_, ?_⟩
  · intro hs
    have hs' : (forms.map stressKey).dedup.length ≤ 1 := by omega
    simp [determine_variant_type, h, hs']
  · intro hs hf hd
    have hs' : ¬ (forms.map stressKey).dedup.length ≤ 1 := by omega
    simp [determine_variant_type, h, hs', hf, hd]
  · intro hs hf hd
    have hs' : ¬ (forms.map stressKey).dedup.length ≤ 1 := by omega
    have hd' : ¬ (forms.map defString).dedup.length ≤ 1 := by omega
    simp [determine_variant_type, h, hs', hf, hd, hd']
  · intro hs hf
    have hs' : ¬ (forms.map stressKey).dedup.length ≤ 1 := by omega
    have hf' : ¬ (forms.map fingerprint).dedup.length = 1 := by omega
    simp [determine_variant_type, h, hs', hf']
  · unfold determine_variant_type
    split_ifs <;> simp

/-- Witness for the classifier rules: the two scenario forms (identical
but stress [0] versus [1], no definitions) give two stress groups, one
fingerprint, one definition — `free_variant`. -/
theorem c6_variant_classifier_witness :
    ([formA, formB] ≠ []) ∧
    ((([formA, formB].map stressKey).dedup.length = 1 →
        determine_variant_type [formA, formB] = "single") ∧
     (1 < ([formA, formB].map stressKey).dedup.length →
        ([formA, formB].map fingerprint).dedup.length = 1 →
        ([formA, formB].map defString).dedup.length ≤ 1 →
        determine_variant_type [formA, formB] = "free_variant") ∧
     (1 < ([formA, formB].map stressKey).dedup.length →
        ([formA, formB].map fingerprint).dedup.length = 1 →
        1 < ([formA, formB].map defString).dedup.length →
        determine_variant_type [formA, formB] = "grammatical_homonym") ∧
     (1 < ([formA, formB].map stressKey).dedup.length →
        1 < ([formA, formB].map fingerprint).dedup.length →
        determine_variant_type [formA, formB] = "morphological_variant") ∧
     (determine_variant_type [formA, formB] = "single" ∨
      determine_variant_type [formA, formB] = "free_variant" ∨
      determine_variant_type [formA, formB] = "grammatical_homonym" ∨
      determine_variant_type [formA, formB] = "morphological_variant")) :=
  ⟨by decide, c6_variant_classifier_rules [formA, formB] (by decide)⟩

/-- The trie parser's vowel alphabet (`trie_stress_parser.py` line 64,
`UKRAINIAN_VOWELS = "уеіїаояиюєУЕІАОЯИЮЄЇ"`). -/
def UKRAINIAN_VOWELS : List Char :=
  ['у', 'е', 'і', 'ї', 'а', 'о', 'я', 'и', 'ю', 'є',
   'У', 'Е', 'І', 'А', 'О', 'Я', 'И', 'Ю', 'Є', 'Ї']

/-- The parser's vowel test `word[i].lower() in VOWELS.lower()`: lowering
maps the upper-case vowels of the constant onto its lower-case ones and no
other character lowers into that set, so the test holds exactly for the
members of the constant in either case. -/
def isTrieVowel (c : Char) : Bool := UKRAINIAN_VOWELS.contains c

/-- The guarded lookup
`stressed_char_pos < len(word) and word[stressed_char_pos] is a vowel`. -/
def vowelAt (word : List Char) (s : Nat) : Bool :=
  match (word.drop s).head? with
  | some c => isTrieVowel c
  | none => false

/-- The position loop of `char_positions_to_vowel_indices`
(`trie_stress_parser.py` lines 119-126).  `p = 0` is skipped.  For
`0 < p` the code eagerly computes
`sum(1 for i in range(p - 1) if word[i] is a vowel)`, which indexes
`word[i]` for every `i < p - 1` and hence raises IndexError when
`p - 1 > len(word)`; the raise is embedded as `none`.  Otherwise the
count of vowels strictly before `p - 1` is collected exactly when the
character at `p - 1` exists and is a vowel. -/
def collectVowelIndices (word : List Char) : List Nat → Option (List Nat)
  | [] => some []
  | p :: rest =>
    if 0 < p then
      if word.length < p - 1 then none
      else
        (collectVowelIndices word rest).map (fun tail =>
          if vowelAt word (p - 1) then
            ((word.take (p - 1)).filter isTrieVowel).length :: tail
          else tail)
    else collectVowelIndices word rest

/-- `char_positions_to_vowel_indices(word, char_positions)`
(`trie_stress_parser.py` lines 109-127): collect the vowel indices and
return `sorted(list(set(...)))` — the ascending duplicate-free list. -/
def char_positions_to_vowel_indices (word : List Char) (ps : List Nat) :
    Option (List Nat) :=
  (collectVowelIndices word ps).map (fun l => sortNat l.dedup)

/-- The collector never raises when every stored position points at most
one past the end of the word. -/
theorem collectVowelIndices_isSome (word : List Char) :
    ∀ ps : List Nat, (∀ p ∈ ps, p ≤ word.length + 1) →
      (collectVowelIndices word ps).isSome := by
  intro ps
  induction ps with
  | nil => intro _; simp [collectVowelIndices]
  | cons p rest ih =>
    intro h
    have hp := h p (by simp)
    have hrest : ∀ q ∈ rest, q ≤ word.length + 1 := fun q hq =>
      h q (by simp [hq])
    by_cases h0 : 0 < p
    · have hlen : ¬ word.length < p - 1 := by omega
      simp only [collectVowelIndices, if_pos h0, if_neg hlen]
      cases hrec : collectVowelIndices word rest with
      | none =>
        have hsome := ih hrest
        rw [hrec] at hsome
        simp at hsome
      | some tail => simp
    · simp only [collectVowelIndices, if_neg h0]
      exact ih hrest

/-- Membership in the collected indices: exactly the vowel counts of the
accepted stored positions. -/
theorem mem_collectVowelIndices (word : List Char) :
    ∀ (ps out : List Nat), collectVowelIndices word ps = some out →
      ∀ v : Nat, (v ∈ out ↔ ∃ p ∈ ps, 0 < p ∧ vowelAt word (p - 1) = true ∧
        v = ((word.take (p - 1)).filter isTrieVowel).length) := by
  intro ps
  induction ps with
  | nil =>
    intro out h v
    simp only [collectVowelIndices, Option.some.injEq] at h
    subst h
    simp
  | cons p rest ih =>
    intro out h v
    by_cases h0 : 0 < p
    · simp only [collectVowelIndices, if_pos h0] at h
      by_cases hlen : word.length < p - 1
      · rw [if_pos hlen] at h; exact absurd h (by simp)
      · rw [if_neg hlen] at h
        cases hrec : collectVowelIndices word rest with
        | none => rw [hrec] at h; exact Option.noConfusion h
        | some tail =>
          rw [hrec] at h
          simp only [Option.map_some', Option.some.injEq] at h
          by_cases hv : vowelAt word (p - 1) = true
          · rw [if_pos hv] at h
            subst h
            constructor
            · intro hm
              rcases List.mem_cons.mp hm with rfl | hm
              · exact ⟨p, by simp, h0, hv, rfl⟩
              · rcases (ih tail hrec v).mp hm with ⟨q, hq, hq0, hqv, hqe⟩
                exact ⟨q, by simp [hq], hq0, hqv, hqe⟩
            · rintro ⟨q, hq, hq0, hqv, hqe⟩
              rcases List.mem_cons.mp hq with rfl | hq
              · subst hqe; exact List.mem_cons_self _ _
              · exact List.mem_cons_of_mem _
                  ((ih tail hrec v).mpr ⟨q, hq, hq0, hqv, hqe⟩)
          · rw [if_neg hv] at h
            subst h
            rw [ih tail hrec v]
            constructor
            · rintro ⟨q, hq, hq0, hqv, hqe⟩
              exact ⟨q, by simp [hq], hq0, hqv, hqe⟩
            · rintro ⟨q, hq, hq0, hqv, hqe⟩
              rcases List.mem_cons.mp hq with rfl | hq
              · exact absurd hqv hv
              · exact ⟨q, hq, hq0, hqv, hqe⟩
    · simp only [collectVowelIndices, if_neg h0] at h
      rw [ih out h v]
      constructor
      · rintro ⟨q, hq, hq0, hqv, hqe⟩
        exact ⟨q, by simp [hq], hq0, hqv, hqe⟩
      · rintro ⟨q, hq, hq0, hqv, hqe⟩
        rcases List.mem_cons.mp hq with rfl | hq
        · exact absurd hq0 h0
        · exact ⟨q, hq, hq0, hqv, hqe⟩

/-- A four-letter calibration word with vowels at indices 1 and 3
(м-а-м-а). -/
def calWord4 : List Char := ['м', 'а', 'м', 'а']

/-- A fourteen-letter calibration word with vowels at indices 1, 3, 5, 7
(м-а-м-а-м-а-м-а followed by six consonants). -/
def calWord14 : List Char :=
  ['м', 'а', 'м', 'а', 'м', 'а', 'м', 'а', 'м', 'м', 'м', 'м', 'м', 'м']

/-- C2: the trie value decoder ignores stored position 0, treats a stored
position `P > 0` as naming the character at `P-1`, converts it to the
count of vowels strictly before `P-1`, and keeps that count exactly when
the character at `P-1` exists and is itself a vowel (first two clauses:
the decoder is defined — no IndexError — whenever every position points at
most one past the end, and membership in its output is characterised
exactly so; third clause: a leading 0 position changes nothing).  The
calibration values hold: a 4-letter word with stored position 2 decodes to
vowel index 0, the same word with stored position 4 to vowel index 1, and
a 14-letter word with stored position 8 (vowel at index 7, three vowels
before it) to vowel index 3. -/
theorem c2_trie_position_decoding :
    (∀ (word : List Char) (ps : List Nat),
        (∀ p ∈ ps, p ≤ word.length + 1) →
        (char_positions_to_vowel_indices word ps).isSome) ∧
    (∀ (word : List Char) (ps out : List Nat),
        char_positions_to_vowel_indices word ps = some out →
        ∀ v : Nat, (v ∈ out ↔ ∃ p ∈ ps, 0 < p ∧
          vowelAt word (p - 1) = true ∧
          v = ((word.take (p - 1)).filter isTrieVowel).length)) ∧
    (∀ (word : List Char) (ps : List Nat),
        char_positions_to_vowel_indices word (0 :: ps) =
          char_positions_to_vowel_indices word ps) ∧
    char_positions_to_vowel_indices calWord4 [2] = some [0] ∧
    char_positions_to_vowel_indices calWord4 [4] = some [1] ∧
    char_positions_to_vowel_indices calWord14 [8] = some [3] := by
  refine ⟨?_, ?_, ?_, by decide, by decide, by decide⟩
  · intro word ps h
    have := collectVowelIndices_isSome word ps h
    rw [char_positions_to_vowel_indices]
    cases hrec : collectVowelIndices word ps with
    | none => rw [hrec] at this; simp at this
    | some l => simp
  · intro word ps out h v
    simp only [char_positions_to_vowel_indices] at h
    cases hrec : collectVowelIndices word ps with
    | none => rw [hrec] at h; exact Option.noConfusion h
    | some l =>
      rw [hrec] at h
      simp only [Option.map_some', Option.some.injEq] at h
      subst h
      have hmm : v ∈ sortNat l.dedup ↔ v ∈ l := by
        rw [sortNat, (List.perm_insertionSort _ l.dedup).mem_iff,
          List.mem_dedup]
      rw [hmm]
      exact mem_collectVowelIndices word ps l hrec v
  · intro word ps
    rfl

/-- Witness for the decoder theorem at the 4-letter calibration word and
stored position 2. -/
theorem c2_trie_decoding_witness :
    (∀ p ∈ [2], p ≤ calWord4.length + 1) ∧
    (char_positions_to_vowel_indices calWord4 [2]).isSome ∧
    char_positions_to_vowel_indices calWord4 [2] = some [0] ∧
    ((0 : Nat) ∈ [0] ↔ ∃ p ∈ [2], 0 < p ∧
      vowelAt calWord4 (p - 1) = true ∧
      0 = ((calWord4.take (p - 1)).filter isTrieVowel).length) :=
  ⟨by decide, c2_trie_position_decoding.1 calWord4 [2] (by decide),
    by decide,
    c2_trie_position_decoding.2.1 calWord4 [2] [0] (by decide) 0⟩

/-- One candidate entry from the exported stress store, as the resolver
reads it (`stress_resolver.py`: `form.get('pos', [])`,
`form.get('feats', {})`, `form.get('stress_variants', [])`). -/
structure StressDBForm where
  pos : List String
  feats : List (String × List String)
  stress_variants : List Nat
deriving DecidableEq, Repr

/-- The resolver-relevant fields of a spaCy token
(`tokenization_service/types.py`: `text` is the original surface text,
`text_normalized` its lowercased, apostrophe-normalized form; `morph` the
feature map). -/
structure TokenData where
  text : List Char
  text_normalized : List Char
  pos : String
  morph : List (String × String)
deriving DecidableEq, Repr

/-- The result dict of `StressResolver.resolve`; Python's float score is
embedded as a rational. -/
structure StressResult where
  stress_position : Option Nat
  stress_pattern : List Char
  stress_confidence : String
  stress_match_score : ℚ
deriving DecidableEq, Repr

/-- The resolver's vowels (`stress_resolver.py` line 56,
`VOWELS = "аеєиіїоуюяАЕЄИІЇОУЮЯ"`). -/
def RESOLVER_VOWELS : List Char :=
  ['а', 'е', 'є', 'и', 'і', 'ї', 'о', 'у', 'ю', 'я',
   'А', 'Е', 'Є', 'И', 'І', 'Ї', 'О', 'У', 'Ю', 'Я']

/-- `token.pos.upper()`: spaCy POS tags are ASCII, so uppercasing the
ASCII range is the full behaviour on the values that occur. -/
def asciiUpper (c : Char) : Char :=
  if 'a' ≤ c ∧ c ≤ 'z' then Char.ofNat (c.toNat - 32) else c

/-- Uppercase a POS tag string. -/
def strUpper (s : String) : String := String.mk (s.data.map asciiUpper)

/-- `stress_feats.get(feat, [])`. -/
def featsGet (feats : List (String × List String)) (k : String) :
    List String :=
  match List.lookup k feats with
  | some vs => vs
  | none => []

/-- The scoring weights of `_calculate_morph_match` (0.4 each). -/
def POS_WEIGHT : ℚ := 2 / 5

def FEATURES_WEIGHT : ℚ := 2 / 5

/-- `StressResolver._calculate_morph_match` (`stress_resolver.py` lines
153-230): 0.4 when the uppercased token POS is among the candidate's POS
values, plus — only when both the token morph and the candidate feats are
non-empty — 0.4 times the fraction of token features whose value occurs in
the candidate's list for that feature. -/
def calculate_morph_match (token : TokenData) (stress_form : StressDBForm) :
    ℚ :=
  let posScore : ℚ :=
    if strUpper token.pos ∈ stress_form.pos then POS_WEIGHT else 0
  let featScore : ℚ :=
    if token.morph ≠ [] ∧ stress_form.feats ≠ [] then
      let matching :=
        (token.morph.filter
          (fun p => p.2 ∈ featsGet stress_form.feats p.1)).length
      let total := token.morph.length
      if 0 < total then
        FEATURES_WEIGHT * ((matching : ℚ) / (total : ℚ))
      else 0
    else 0
  posScore + featScore

/-- One iteration of the `_find_best_match` loop: update on a strictly
greater score. -/
def findBestStep (token : TokenData) (p : StressDBForm × ℚ)
    (form : StressDBForm) : StressDBForm × ℚ :=
  let score := calculate_morph_match token form
  if p.2 < score then (form, score) else p

/-- `StressResolver._find_best_match` (`stress_resolver.py` lines
114-151): start from the first candidate with score 0.0 and scan the
whole list. -/
def find_best_match (token : TokenData) (f0 : StressDBForm)
    (fs : List StressDBForm) : StressDBForm × ℚ :=
  (f0 :: fs).foldl (findBestStep token) (f0, 0)

/-- `[i for i, char in enumerate(word) if char in self.VOWELS]`. -/
def vowelPositions (word : List Char) : List Nat :=
  (word.enum.filter (fun p => RESOLVER_VOWELS.contains p.2)).map Prod.fst

/-- `StressResolver._add_stress_mark` (`stress_resolver.py` lines
279-317): an out-of-range vowel index returns the word unchanged (after a
logged warning); otherwise the combining acute accent U+0301 is inserted
right after the chosen vowel's character. -/
def add_stress_mark (word : List Char) (stress_position : Nat) :
    List Char :=
  let vps := vowelPositions word
  if vps.length ≤ stress_position then word
  else
    let insert_pos := vps.getD stress_position 0 + 1
    word.take insert_pos ++ [Char.ofNat 0x301] ++ word.drop insert_pos

/-- `StressResolver._build_result` (`stress_resolver.py` lines 232-268):
the stress position is the candidate's first stress variant (if any), and
the display pattern is built from `token.text_normalized`. -/
def build_result (token : TokenData) (form : StressDBForm) (score : ℚ)
    (confidence : String) : StressResult :=
  let stress_position := form.stress_variants.head?
  { stress_position := stress_position
    stress_pattern :=
      match stress_position with
      | some p => add_stress_mark token.text_normalized p
      | none => []
    stress_confidence := confidence
    stress_match_score := score }

/-- `StressResolver._no_stress_result`. -/
def no_stress_result : StressResult :=
  { stress_position := none, stress_pattern := []
    stress_confidence := "none", stress_match_score := 0 }

/-- `StressResolver.resolve` (`stress_resolver.py` lines 68-112), as a
function of the token and the candidate list the store lookup returned:
no candidate → the none result; one candidate → that candidate with score
1.0 and confidence exact; several → the best morphology match with the
thresholded confidence. -/
def resolve (token : TokenData) (stress_result : List StressDBForm) :
    StressResult :=
  match stress_result with
  | [] => no_stress_result
  | [f] => build_result token f 1 "exact"
  | f0 :: f1 :: rest =>
    let best := find_best_match token f0 (f1 :: rest)
    let confidence :=
      if 4 / 5 ≤ best.2 then "exact"
      else if 1 / 2 ≤ best.2 then "partial"
      else "fallback"
    build_result token best.1 best.2 confidence

/-- Scores are sums of non-negative pieces. -/
theorem calc_nonneg (t : TokenData) (f : StressDBForm) :
    0 ≤ calculate_morph_match t f := by
  simp only [calculate_morph_match, POS_WEIGHT, FEATURES_WEIGHT]
  split_ifs <;> positivity

/-- The running maximum never drops below its start. -/
theorem le_foldl_max (t : TokenData) :
    ∀ (l : List StressDBForm) (b : ℚ),
      b ≤ l.foldl (fun a f => max a (calculate_morph_match t f)) b := by
  intro l
  induction l with
  | nil => intro b; simp
  | cons f l ih => intro b; exact le_trans (le_max_left _ _) (ih _)

/-- Every listed candidate's score is at most the running maximum. -/
theorem calc_le_foldl_max (t : TokenData) :
    ∀ (l : List StressDBForm) (b : ℚ) (g : StressDBForm), g ∈ l →
      calculate_morph_match t g ≤
        l.foldl (fun a f => max a (calculate_morph_match t f)) b := by
  intro l
  induction l with
  | nil => intro b g hg; simp at hg
  | cons f l ih =>
    intro b g hg
    rcases List.mem_cons.mp hg with rfl | hg
    · exact le_trans (le_max_right b _) (le_foldl_max t l _)
    · exact ih _ g hg

/-- The scan leaves the accumulator alone when no score beats it. -/
theorem foldl_step_stay (t : TokenData) :
    ∀ (l : List StressDBForm) (bf : StressDBForm) (bs : ℚ),
      (∀ g ∈ l, calculate_morph_match t g ≤ bs) →
      l.foldl (findBestStep t) (bf, bs) = (bf, bs) := by
  intro l
  induction l with
  | nil => intro bf bs _; rfl
  | cons f l ih =>
    intro bf bs h
    have hf : ¬ bs < calculate_morph_match t f :=
      not_lt.mpr (h f (by simp))
    simp only [List.foldl_cons, findBestStep, if_neg hf]
    exact ih bf bs (fun g hg => h g (by simp [hg]))

/-- The scan's final score is the running maximum of all scores. -/
theorem foldl_step_snd (t : TokenData) :
    ∀ (l : List StressDBForm) (bf : StressDBForm) (bs : ℚ),
      (l.foldl (findBestStep t) (bf, bs)).2 =
        l.foldl (fun a f => max a (calculate_morph_match t f)) bs := by
  intro l
  induction l with
  | nil => intro bf bs; rfl
  | cons f l ih =>
    intro bf bs
    by_cases h : bs < calculate_morph_match t f
    · simp only [List.foldl_cons, findBestStep, if_pos h, ih,
        max_eq_right h.le]
    · simp only [List.foldl_cons, findBestStep, if_neg h, ih,
        max_eq_left (not_lt.mp h)]

/-- When some score strictly beats the start, the scan selects the
earliest candidate attaining the maximum. -/
theorem foldl_step_fst (t : TokenData) :
    ∀ (l : List StressDBForm) (bf : StressDBForm) (bs M : ℚ),
      M = l.foldl (fun a f => max a (calculate_morph_match t f)) bs →
      bs < M →
      l.find? (fun f => decide (M ≤ calculate_morph_match t f)) =
        some (l.foldl (findBestStep t) (bf, bs)).1 := by
  intro l
  induction l with
  | nil =>
    intro bf bs M hM hlt
    simp only [List.foldl_nil] at hM
    subst hM
    exact absurd hlt (lt_irrefl _)
  | cons f l ih =>
    intro bf bs M hM hlt
    simp only [List.foldl_cons] at hM
    by_cases h : bs < calculate_morph_match t f
    · rw [max_eq_right h.le] at hM
      by_cases hMf : M ≤ calculate_morph_match t f
      · have hfM : calculate_morph_match t f = M :=
          le_antisymm (hM ▸ le_foldl_max t l _) hMf
        rw [List.find?_cons_of_pos _ (by simpa using hMf)]
        have hall : ∀ g ∈ l, calculate_morph_match t g ≤
            calculate_morph_match t f := fun g hg =>
          hfM ▸ hM ▸ calc_le_foldl_max t l _ g hg
        simp only [List.foldl_cons, findBestStep, if_pos h]
        rw [foldl_step_stay t l f _ hall]
      · have hlt2 : calculate_morph_match t f < M := lt_of_not_le hMf
        rw [List.find?_cons_of_neg _ (by simpa using hMf)]
        simp only [List.foldl_cons, findBestStep, if_pos h]
        exact ih f (calculate_morph_match t f) M hM hlt2
    · have hfb : calculate_morph_match t f ≤ bs := not_lt.mp h
      rw [max_eq_left hfb] at hM
      have hpred : ¬ M ≤ calculate_morph_match t f :=
        not_le.mpr (lt_of_le_of_lt hfb hlt)
      rw [List.find?_cons_of_neg _ (by simpa using hpred)]
      simp only [List.foldl_cons, findBestStep, if_neg h]
      exact ih bf bs M hM hlt

/-- The `_find_best_match` scan computes the maximum score and returns the
earliest candidate attaining it (ties keep store order; all-zero scores
keep the first candidate). -/
theorem find_best_match_spec (t : TokenData) (f0 : StressDBForm)
    (fs : List StressDBForm) :
    (find_best_match t f0 fs).2 =
      (f0 :: fs).foldl (fun a f => max a (calculate_morph_match t f)) 0 ∧
    (f0 :: fs).find? (fun f => decide
        ((f0 :: fs).foldl (fun a f => max a (calculate_morph_match t f)) 0
          ≤ calculate_morph_match t f)) =
      some (find_best_match t f0 fs).1 := by
  constructor
  · exact foldl_step_snd t (f0 :: fs) f0 0
  · by_cases hM : 0 <
      (f0 :: fs).foldl (fun a f => max a (calculate_morph_match t f)) 0
    · exact foldl_step_fst t (f0 :: fs) f0 0 _ rfl hM
    · have hM0 : (f0 :: fs).foldl
          (fun a f => max a (calculate_morph_match t f)) 0 = 0 :=
        le_antisymm (not_lt.mp hM) (le_foldl_max t _ 0)
      have hall : ∀ g ∈ (f0 :: fs), calculate_morph_match t g ≤ 0 :=
        fun g hg => hM0 ▸ calc_le_foldl_max t _ 0 g hg
      have hstay := foldl_step_stay t (f0 :: fs) f0 0 hall
      rw [List.find?_cons_of_pos _
        (by simp [hM0, calc_nonneg t f0])]
      rw [find_best_match, hstay]

/-- The spec scenario's token: POS `NOUN`, no distinguishing features. -/
def scenToken : TokenData :=
  { text := ['з', 'а', 'м', 'о', 'к']
    text_normalized := ['з', 'а', 'м', 'о', 'к']
    pos := "NOUN", morph := [] }

/-- First scenario candidate: NOUN, stress `[0]`. -/
def scenC1 : StressDBForm :=
  { pos := ["NOUN"], feats := [], stress_variants := [0] }

/-- Second scenario candidate: NOUN, stress `[1]`. -/
def scenC2 : StressDBForm :=
  { pos := ["NOUN"], feats := [], stress_variants := [1] }

/-- C3: the resolver is a total function of (token, candidate list).  Zero
candidates → position none, confidence `none`, score 0.  One candidate →
that candidate's first stress index, confidence `exact`, score 1.
Several candidates → the score is the maximum of the per-candidate scores
(0.4 for a POS hit plus 0.4 times the matched-feature fraction, 0 when
the token has no features), the selected candidate is the earliest one
attaining that maximum (so ties keep store order), and the confidence is
`exact` at ≥ 0.8, `partial` at ≥ 0.5, else `fallback`.  In the two-NOUN
scenario both candidates score 0.4 and the first is chosen with
confidence `fallback`. -/
theorem c3_resolver_total_scoring :
    (∀ t : TokenData, resolve t [] = no_stress_result) ∧
    (∀ (t : TokenData) (f : StressDBForm),
        (resolve t [f]).stress_position = f.stress_variants.head? ∧
        (resolve t [f]).stress_confidence = "exact" ∧
        (resolve t [f]).stress_match_score = 1) ∧
    (∀ (t : TokenData) (f0 f1 : StressDBForm) (fs : List StressDBForm),
        (resolve t (f0 :: f1 :: fs)).stress_match_score =
          (f0 :: f1 :: fs).foldl
            (fun a f => max a (calculate_morph_match t f)) 0 ∧
        (resolve t (f0 :: f1 :: fs)).stress_confidence =
          (if 4 / 5 ≤ (f0 :: f1 :: fs).foldl
              (fun a f => max a (calculate_morph_match t f)) 0 then "exact"
           else if 1 / 2 ≤ (f0 :: f1 :: fs).foldl
              (fun a f => max a (calculate_morph_match t f)) 0 then
             "partial"
           else "fallback") ∧
        ∃ c : StressDBForm,
          (f0 :: f1 :: fs).find? (fun f => decide
              ((f0 :: f1 :: fs).foldl
                (fun a f => max a (calculate_morph_match t f)) 0 ≤
                calculate_morph_match t f)) = some c ∧
          (resolve t (f0 :: f1 :: fs)).stress_position =
            c.stress_variants.head?) ∧
    (calculate_morph_match scenToken scenC1 = 2 / 5 ∧
     calculate_morph_match scenToken scenC2 = 2 / 5 ∧
     (resolve scenToken [scenC1, scenC2]).stress_position = some 0 ∧
     (resolve scenToken [scenC1, scenC2]).stress_confidence = "fallback" ∧
     (resolve scenToken [scenC1, scenC2]).stress_match_score = 2 / 5) := by
  refine ⟨fun t => rfl, fun t f => ⟨rfl, rfl, rfl⟩, ?_, ?_⟩
  · intro t f0 f1 fs
    obtain ⟨hsnd, hfst⟩ := find_best_match_spec t f0 (f1 :: fs)
    refine ⟨?_, ?_, ?_⟩
    · show (find_best_match t f0 (f1 :: fs)).2 = _
      exact hsnd
    · show (if 4 / 5 ≤ (find_best_match t f0 (f1 :: fs)).2 then "exact"
        else if 1 / 2 ≤ (find_best_match t f0 (f1 :: fs)).2 then "partial"
        else "fallback") = _
      rw [hsnd]
    · refine ⟨(find_best_match t f0 (f1 :: fs)).1, hfst, ?_⟩
      rfl
  · have hmem1 : strUpper scenToken.pos ∈ scenC1.pos := by decide
    have hmem2 : strUpper scenToken.pos ∈ scenC2.pos := by decide
    have hmorph1 : ¬ (scenToken.morph ≠ [] ∧ scenC1.feats ≠ []) := by decide
    have hmorph2 : ¬ (scenToken.morph ≠ [] ∧ scenC2.feats ≠ []) := by decide
    have hc1 : calculate_morph_match scenToken scenC1 = 2 / 5 := by
      simp only [calculate_morph_match, if_pos hmem1, if_neg hmorph1,
        POS_WEIGHT]
      norm_num
    have hc2 : calculate_morph_match scenToken scenC2 = 2 / 5 := by
      simp only [calculate_morph_match, if_pos hmem2, if_neg hmorph2,
        POS_WEIGHT]
      norm_num
    have hstep1 : findBestStep scenToken (scenC1, 0) scenC1 =
        (scenC1, 2 / 5) := by
      simp only [findBestStep, hc1]
      norm_num
    have hstep2 : findBestStep scenToken (scenC1, 2 / 5) scenC2 =
        (scenC1, 2 / 5) := by
      simp only [findBestStep, hc2]
      norm_num
    have hfb : find_best_match scenToken scenC1 [scenC2] =
        (scenC1, 2 / 5) := by
      simp only [find_best_match, List.foldl_cons, List.foldl_nil,
        hstep1, hstep2]
    have hres : resolve scenToken [scenC1, scenC2] =
        build_result scenToken scenC1 (2 / 5) "fallback" := by
      simp only [resolve, hfb]
      norm_num
    exact ⟨hc1, hc2, by rw [hres]; rfl, by rw [hres]; rfl,
      by rw [hres]; rfl⟩

/-- A token whose original surface text is capitalised while its
normalized text is lowercased. -/
def c8Token : TokenData :=
  { text := ['М', 'а', 'м', 'а']
    text_normalized := ['м', 'а', 'м', 'а']
    pos := "NOUN", morph := [] }

/-- A single stress candidate for that token, stress on vowel 0. -/
def c8Cand : StressDBForm :=
  { pos := ["NOUN"], feats := [], stress_variants := [0] }

/-- C8 counterexample: the resolver builds the display pattern from
`token.text_normalized`, NOT from the original surface text — for the
capitalised token `Мама` the resolved pattern is the lowercased marked
string and differs from the combining mark inserted into the original
text as the claim states. -/
theorem c8_counterexample :
    (resolve c8Token [c8Cand]).stress_pattern =
      ['м', 'а', Char.ofNat 0x301, 'м', 'а'] ∧
    add_stress_mark c8Token.text 0 =
      ['М', 'а', Char.ofNat 0x301, 'м', 'а'] ∧
    (resolve c8Token [c8Cand]).stress_pattern ≠
      add_stress_mark c8Token.text 0 :=
  ⟨by decide, by decide, by decide⟩

/-- C8 amended: the display form is built by inserting the combining
acute accent U+0301 immediately after the character of the chosen vowel
index, where vowels are counted over the NORMALIZED surface text
(`token.text_normalized`), and an out-of-range vowel index (at least the
number of vowels) returns the text unchanged — `add_stress_mark` is a
total function, so no exception arises. -/
theorem c8_amended_pattern_from_normalized :
    (∀ (t : TokenData) (form : StressDBForm) (score : ℚ) (conf : String)
        (p : Nat), form.stress_variants.head? = some p →
        (build_result t form score conf).stress_pattern =
          add_stress_mark t.text_normalized p) ∧
    (∀ (w : List Char) (p : Nat), p < (vowelPositions w).length →
        add_stress_mark w p =
          w.take ((vowelPositions w).getD p 0 + 1) ++
            [Char.ofNat 0x301] ++
            w.drop ((vowelPositions w).getD p 0 + 1)) ∧
    (∀ (w : List Char) (p : Nat), (vowelPositions w).length ≤ p →
        add_stress_mark w p = w) := by
  refine ⟨?_, ?_, ?_⟩
  · intro t form score conf p hp
    simp [build_result, hp]
  · intro w p hp
    rw [add_stress_mark, if_neg (not_le.mpr hp)]
  · intro w p hp
    rw [add_stress_mark, if_pos hp]

/-- Witness for the amended C8 theorem at the capitalised token, an
in-range index 0 and an out-of-range index 3. -/
theorem c8_amended_pattern_witness :
    c8Cand.stress_variants.head? = some 0 ∧
    (build_result c8Token c8Cand 1 "exact").stress_pattern =
      add_stress_mark c8Token.text_normalized 0 ∧
    0 < (vowelPositions c8Token.text_normalized).length ∧
    add_stress_mark c8Token.text_normalized 0 =
      c8Token.text_normalized.take
          ((vowelPositions c8Token.text_normalized).getD 0 0 + 1) ++
        [Char.ofNat 0x301] ++
        c8Token.text_normalized.drop
          ((vowelPositions c8Token.text_normalized).getD 0 0 + 1) ∧
    (vowelPositions ['м']).length ≤ 3 ∧
    add_stress_mark ['м'] 3 = ['м'] :=
  ⟨rfl,
    c8_amended_pattern_from_normalized.1 c8Token c8Cand 1 "exact" 0 rfl,
    by decide,
    c8_amended_pattern_from_normalized.2.1 c8Token.text_normalized 0
      (by decide),
    by decide,
    c8_amended_pattern_from_normalized.2.2 ['м'] 3 (by decide)⟩

/-- Python `str.lower()` restricted to the characters that occur in
Ukrainian/ASCII lemmas: ASCII A-Z, the contiguous Cyrillic block А-Я, and
the separate letters Є І Ї Ґ. -/
def lowerChar (c : Char) : Char :=
  if 'A' ≤ c ∧ c ≤ 'Z' then Char.ofNat (c.toNat + 32)
  else if 'А' ≤ c ∧ c ≤ 'Я' then Char.ofNat (c.toNat + 32)
  else if c = 'Є' then 'є'
  else if c = 'І' then 'і'
  else if c = 'Ї' then 'ї'
  else if c = 'Ґ' then 'ґ'
  else c

/-- Lowercase a lemma string. -/
def strLower (s : String) : String := String.mk (s.data.map lowerChar)

/-- `{wf.lemma.lower() for wf in forms if wf.lemma}` of `merge_wordforms`
(`kaikki_parser.py` line 221), as a list — only membership is consumed. -/
def lemmaSet (forms : List WordForm) : List String :=
  forms.filterMap (fun wf => wf.lemma_.map strLower)

/-- The Number-feature group of the variative-stress branch
(`kaikki_parser.py` lines 231-238): missing Number and `Sing` group
together. -/
def numberGroup (wf : WordForm) : String :=
  match List.lookup UDFeatKey.Number wf.feats with
  | none => "SingOrNone"
  | some v => if v = "Sing" then "SingOrNone" else v

/-- `group_key(wf) = (wf.form, wf.sense_id, wf.pos, number_group)`. -/
def groupKey (wf : WordForm) : String × Option String × UPOS × String :=
  (wf.form, wf.sense_id, wf.pos, numberGroup wf)

/-- Insert one form into the variative group map (a Python dict keyed by
`group_key`, in insertion order; keys are unique by construction, so the
value update touches exactly one group). -/
def addToGroups
    (groups : List ((String × Option String × UPOS × String) ×
      List WordForm)) (wf : WordForm) :
    List ((String × Option String × UPOS × String) × List WordForm) :=
  if ∃ g ∈ groups, g.1 = groupKey wf then
    groups.map (fun g =>
      if g.1 = groupKey wf then (g.1, g.2 ++ [wf]) else g)
  else groups ++ [(groupKey wf, [wf])]

/-- One variative group's merged form: a copy of the group's first form
whose stress indices are `sorted(set union)` of the whole group. -/
def mergeVariativeGroup : List WordForm → Option WordForm
  | [] => none
  | w :: rest =>
    let allStress :=
      (w :: rest).foldl (fun acc wf => acc ++ wf.stress_indices) []
    some { w with stress_indices := sortNat allStress.dedup }

/-- The double-stress branch's merge key
`(wf.sense_id, wf.form, wf.pos, tuple(sorted(wf.feats.items())))`. -/
def doubleKey (wf : WordForm) :
    Option String × String × UPOS × List (UDFeatKey × String) :=
  (wf.sense_id, wf.form, wf.pos, sortFeats wf.feats)

/-- Insert a form into the double-stress merge map: first occurrence is a
copy, later ones union the stress sets in place. -/
def addToDouble
    (m : List ((Option String × String × UPOS ×
      List (UDFeatKey × String)) × WordForm)) (wf : WordForm) :
    List ((Option String × String × UPOS ×
      List (UDFeatKey × String)) × WordForm) :=
  if ∃ p ∈ m, p.1 = doubleKey wf then
    m.map (fun p =>
      if p.1 = doubleKey wf then
        let merged := sortNat (p.2.stress_indices ++ wf.stress_indices).dedup
        (p.1, { p.2 with stress_indices := merged })
      else p)
  else m ++ [(doubleKey wf, wf)]

/-- `merge_wordforms(forms, double_stress_lemmas)` (`kaikki_parser.py`
lines 213-252), with the two externally loaded allow-lists passed as
parameters (the source loads them from files). -/
def merge_wordforms (forms : List WordForm)
    (double_stress_lemmas variative_stress_lemmas : List String) :
    List WordForm :=
  let ls := lemmaSet forms
  let is_double := ls.any (fun l => double_stress_lemmas.contains l)
  let is_variative := ls.any (fun l => variative_stress_lemmas.contains l)
  if is_variative then
    (forms.foldl addToGroups []).filterMap
      (fun g => mergeVariativeGroup g.2)
  else if is_double then
    (forms.foldl addToDouble []).map Prod.snd
  else forms

/-- Equality on every `WordForm` field except `stress_indices`. -/
@[reducible] def sameExceptStress (a b : WordForm) : Prop :=
  a.form = b.form ∧ a.pos = b.pos ∧ a.feats = b.feats ∧
  a.lemma_ = b.lemma_ ∧ a.main_definition = b.main_definition ∧
  a.alt_definitions = b.alt_definitions ∧
  a.translations = b.translations ∧
  a.etymology_templates = b.etymology_templates ∧
  a.etymology_number = b.etymology_number ∧ a.tags = b.tags ∧
  a.examples = b.examples ∧ a.roman = b.roman ∧ a.ipa = b.ipa ∧
  a.etymology = b.etymology ∧
  a.inflection_templates = b.inflection_templates ∧
  a.categories = b.categories ∧ a.sense_id = b.sense_id

/-- C9: two forms with the same surface text that share POS and
morphological features (indeed every field except the marked stress), for
a lemma on the variable-stress allow-list, are emitted as ONE combined
WordForm whose stress indices are the union of the two stress-index
sets. -/
theorem c9_variative_stress_union :
    ∀ (a b : WordForm) (dbl var : List String),
      sameExceptStress a b →
      (∃ l, a.lemma_ = some l ∧ strLower l ∈ var) →
      ∃ c : WordForm,
        merge_wordforms [a, b] dbl var = [c] ∧
        sameExceptStress c a ∧
        (∀ i : Nat, i ∈ c.stress_indices ↔
          i ∈ a.stress_indices ∨ i ∈ b.stress_indices) := by
  intro a b dbl var hsame hvar
  obtain ⟨l, hl, hlv⟩ := hvar
  have hmem : strLower l ∈ lemmaSet [a, b] := by
    simp only [lemmaSet, List.filterMap_cons, List.filterMap_nil, hl,
      Option.map_some']
    simp
  have hany : (lemmaSet [a, b]).any
      (fun s => var.contains s) = true := by
    rw [List.any_eq_true]
    exact ⟨strLower l, hmem, by simpa using hlv⟩
  have hkey : groupKey b = groupKey a := by
    obtain ⟨h1, h2, h3, _, _, _, _, _, _, _, _, _, _, _, _, _, h17⟩ := hsame
    simp [groupKey, numberGroup, h1, h2, h3, h17]
  refine ⟨{ a with stress_indices := sortNat ((([] ++ a.stress_indices) ++ b.stress_indices)).dedup }, ?_, ?_, ?_⟩
  · rw [merge_wordforms]
    simp only [hany, if_true]
    have hg1 : addToGroups [] a = [(groupKey a, [a])] := by
      simp [addToGroups]
    have hg2 : addToGroups [(groupKey a, [a])] b =
        [(groupKey a, [a, b])] := by
      rw [addToGroups, if_pos ⟨(groupKey a, [a]), by simp, hkey.symm⟩]
      simp [hkey.symm]
    show ([a, b].foldl addToGroups []).filterMap
        (fun g => mergeVariativeGroup g.2) = _
    simp only [List.foldl_cons, List.foldl_nil, hg1, hg2]
    simp [mergeVariativeGroup]
  · exact ⟨rfl, rfl, rfl, rfl, rfl, rfl, rfl, rfl, rfl, rfl, rfl, rfl,
      rfl, rfl, rfl, rfl, rfl⟩
  · intro i
    simp only [List.nil_append]
    rw [sortNat, (List.perm_insertionSort _ _).mem_iff, List.mem_dedup,
      List.mem_append]

/-- A kaikki form for lemma `замок`, stress on vowel 0. -/
def varFormA : WordForm :=
  { formA with form := "замок", lemma_ := some "замок" }

/-- The same form with stress on vowel 1 instead. -/
def varFormB : WordForm := { varFormA with stress_indices := [1] }

/-- Witness for the variative-stress merge at a lemma on the allow-list. -/
theorem c9_variative_stress_witness :
    sameExceptStress varFormA varFormB ∧
    (∃ l, varFormA.lemma_ = some l ∧ strLower l ∈ ["замок"]) ∧
    (∃ c : WordForm,
      merge_wordforms [varFormA, varFormB] [] ["замок"] = [c] ∧
      sameExceptStress c varFormA ∧
      (∀ i : Nat, i ∈ c.stress_indices ↔
        i ∈ varFormA.stress_indices ∨ i ∈ varFormB.stress_indices)) :=
  ⟨by decide, ⟨"замок", rfl, by decide⟩,
    c9_variative_stress_union varFormA varFormB [] ["замок"] (by decide)
      ⟨"замок", rfl, by decide⟩⟩

/-- One line of the kaikki JSONL stream as `entry_iter` of
`stream_kaikki_to_lmdb` sees it (`kaikki_parser.py` lines 464-474): blank
(skipped), malformed JSON (`json.loads` raises, and no handler exists in
the loop), an object without a `word` key (skipped), or a well-formed
entry.  The per-entry body (senses × inflection forms) is abstracted to
the word forms it contributes, which the error-handling claim does not
depend on. -/
inductive KaikkiLine where
  | blank
  | malformed
  | noWord
  | entry (word : String) (forms : List WordForm)
deriving DecidableEq, Repr

/-- `word_entries.setdefault(norm_word, []).append(...)` over a whole
line's contributed forms. -/
def addWordForms (acc : List (String × List WordForm)) (w : String)
    (fs : List WordForm) : List (String × List WordForm) :=
  if ∃ p ∈ acc, p.1 = w then
    acc.map (fun p => if p.1 = w then (p.1, p.2 ++ fs) else p)
  else acc ++ [(w, fs)]

/-- The kaikki line loop: a malformed JSON line raises out of the
generator — embedded as `Except.error` — because `json.loads(line)` is
not wrapped in any try/except. -/
def kaikkiCollect :
    List KaikkiLine → List (String × List WordForm) →
      Except Unit (List (String × List WordForm))
  | [], acc => .ok acc
  | line :: rest, acc =>
    match line with
    | .blank => kaikkiCollect rest acc
    | .malformed => .error ()
    | .noWord => kaikkiCollect rest acc
    | .entry w fs => kaikkiCollect rest (addWordForms acc w fs)

/-- The collected word entries of `entry_iter`, or the propagated decode
error. -/
def stream_kaikki_entry_iter (lines : List KaikkiLine) :
    Except Unit (List (String × List WordForm)) :=
  kaikkiCollect lines []

/-- One token of the txt stress dictionary as the loop of
`parse_txt_to_unified_dict` sees it (`txt_stress_parser.py` lines
232-281): either its processing raises somewhere (cleaning,
lemmatisation, stress extraction, WordForm construction — each wrapped in
try/except that logs and continues), or it contributes a lemma and a
form. -/
inductive TxtToken where
  | malformed
  | token (lem : String) (wf : WordForm)
deriving DecidableEq, Repr

/-- Add one parsed txt form under its lemma, deduplicating by
`stress_indices` as the source loop does. -/
def txtAddForm (m : List (String × List WordForm)) (lem : String)
    (wf : WordForm) : List (String × List WordForm) :=
  if ∃ p ∈ m, p.1 = lem then
    m.map (fun p =>
      if p.1 = lem then
        (p.1, if p.2.any
            (fun w => w.stress_indices = wf.stress_indices) then p.2
          else p.2 ++ [wf])
      else p)
  else m ++ [(lem, [wf])]

/-- One step of the txt token loop: a malformed token is skipped (warned
and `continue`d), a good one is added. -/
def txtProcessToken (m : List (String × List WordForm)) :
    TxtToken → List (String × List WordForm)
  | .malformed => m
  | .token lem wf => txtAddForm m lem wf

/-- The txt parser's token loop over the whole (line-flattened) token
stream; it is total — every exception is caught inside the loop. -/
def parse_txt_tokens (tokens : List TxtToken) :
    List (String × List WordForm) :=
  tokens.foldl txtProcessToken []

/-- C7 counterexample: a single malformed JSON line ABORTS the kaikki
streaming parse — the stream with a malformed line between two good lines
yields the propagated error, while the same stream without it parses
fine; so "a single bad record never aborts the whole parse" is false for
the kaikki parser. -/
theorem c7_counterexample :
    stream_kaikki_entry_iter
        [KaikkiLine.entry "a" [formA], KaikkiLine.malformed,
         KaikkiLine.entry "b" [formB]] = .error () ∧
    stream_kaikki_entry_iter
        [KaikkiLine.entry "a" [formA], KaikkiLine.entry "b" [formB]] =
      .ok [("a", [formA]), ("b", [formB])] := by
  constructor
  · rfl
  · rfl

/-- Any malformed line anywhere in the kaikki stream aborts the parse. -/
theorem kaikkiCollect_error :
    ∀ (lines : List KaikkiLine) (acc : List (String × List WordForm)),
      KaikkiLine.malformed ∈ lines → kaikkiCollect lines acc = .error () := by
  intro lines
  induction lines with
  | nil => intro acc h; simp at h
  | cons line rest ih =>
    intro acc h
    cases line with
    | blank =>
      rcases List.mem_cons.mp h with h | h
      · exact absurd h (by simp)
      · exact ih acc h
    | malformed => rfl
    | noWord =>
      rcases List.mem_cons.mp h with h | h
      · exact absurd h (by simp)
      · exact ih acc h
    | entry w fs =>
      rcases List.mem_cons.mp h with h | h
      · exact absurd h (by simp)
      · exact ih _ h

/-- C7 amended: error handling differs by parser.  The txt token loop is
best-effort — a malformed token is skipped (with a logged warning, not a
counter) and the parse of the remaining tokens is unchanged, and the loop
is a total function.  The kaikki JSONL streaming parser is NOT: any
malformed JSON line makes the whole parse raise
(`json.loads` is unguarded), aborting instead of skipping. -/
theorem c7_amended_error_handling :
    (∀ (pre post : List TxtToken),
        parse_txt_tokens (pre ++ TxtToken.malformed :: post) =
          parse_txt_tokens (pre ++ post)) ∧
    (∀ lines : List KaikkiLine, KaikkiLine.malformed ∈ lines →
        stream_kaikki_entry_iter lines = .error ()) := by
  constructor
  · intro pre post
    simp [parse_txt_tokens, List.foldl_append, txtProcessToken]
  · intro lines h
    exact kaikkiCollect_error lines [] h

/-- Witness for the amended error-handling theorem at concrete streams. -/
theorem c7_amended_error_witness :
    parse_txt_tokens
        ([TxtToken.token "a" formA] ++ TxtToken.malformed ::
          [TxtToken.token "b" formB]) =
      parse_txt_tokens
        ([TxtToken.token "a" formA] ++ [TxtToken.token "b" formB]) ∧
    KaikkiLine.malformed ∈
      [KaikkiLine.entry "a" [formA], KaikkiLine.malformed] ∧
    stream_kaikki_entry_iter
        [KaikkiLine.entry "a" [formA], KaikkiLine.malformed] =
      .error () :=
  ⟨c7_amended_error_handling.1 [TxtToken.token "a" formA]
      [TxtToken.token "b" formB],
    by decide,
    c7_amended_error_handling.2
      [KaikkiLine.entry "a" [formA], KaikkiLine.malformed] (by decide)⟩

/-- Total number of records across all input cursors. -/
def totalLen (ss : List (List (String × LinguisticEntry))) : Nat :=
  (ss.map List.length).sum

/-- One step of `heapq.merge(*streams, key=lambda x: x[0])` over sorted
streams: yield the head with the smallest key, ties resolved to the
earliest stream (heapq.merge is stable); exhausted streams stay in place
with no head to offer. -/
def popMin : List (List (String × LinguisticEntry)) →
    Option ((String × LinguisticEntry) ×
      List (List (String × LinguisticEntry)))
  | [] => none
  | [] :: rest =>
    match popMin rest with
    | none => none
    | some (x, rs) => some (x, [] :: rs)
  | (kv :: tl) :: rest =>
    match popMin rest with
    | none => some (kv, tl :: rest)
    | some (kv', rs') =>
      if kv.1 ≤ kv'.1 then some (kv, tl :: rest)
      else some (kv', (kv :: tl) :: rs')

/-- Popping a record removes exactly one element. -/
theorem popMin_totalLen :
    ∀ (ss : List (List (String × LinguisticEntry))) x rest,
      popMin ss = some (x, rest) → totalLen rest + 1 = totalLen ss := by
  intro ss
  induction ss with
  | nil => intro x rest h; exact Option.noConfusion h
  | cons s ss ih =>
    intro x rest h
    cases s with
    | nil =>
      cases hrec : popMin ss with
      | none =>
        simp only [popMin, hrec] at h
        exact Option.noConfusion h
      | some p =>
        obtain ⟨y, rs⟩ := p
        simp only [popMin, hrec, Option.some.injEq, Prod.mk.injEq] at h
        obtain ⟨rfl, rfl⟩ := h
        have := ih y rs hrec
        simp only [totalLen, List.map_cons, List.sum_cons,
          List.length_nil] at this ⊢
        omega
    | cons kv tl =>
      cases hrec : popMin ss with
      | none =>
        simp only [popMin, hrec, Option.some.injEq, Prod.mk.injEq] at h
        obtain ⟨rfl, rfl⟩ := h
        simp only [totalLen, List.map_cons, List.sum_cons,
          List.length_cons]
        omega
      | some p =>
        obtain ⟨kv', rs'⟩ := p
        simp only [popMin, hrec] at h
        by_cases hle : kv.1 ≤ kv'.1
        · rw [if_pos hle] at h
          simp only [Option.some.injEq, Prod.mk.injEq] at h
          obtain ⟨rfl, rfl⟩ := h
          simp only [totalLen, List.map_cons, List.sum_cons,
            List.length_cons]
          omega
        · rw [if_neg hle] at h
          simp only [Option.some.injEq, Prod.mk.injEq] at h
          obtain ⟨rfl, rfl⟩ := h
          have := ih kv' rs' hrec
          simp only [totalLen, List.map_cons, List.sum_cons,
            List.length_cons] at this ⊢
          omega

/-- The k-way merge of `merge_caches_and_save_lmdb` (`merger.py` line
219): repeatedly yield the smallest-keyed head among the streams. -/
def kWayMerge (ss : List (List (String × LinguisticEntry))) :
    List (String × LinguisticEntry) :=
  match h : popMin ss with
  | none => []
  | some (x, rest) => x :: kWayMerge rest
termination_by totalLen ss
decreasing_by
  have := popMin_totalLen ss x rest h
  omega

/-- No record to pop means every stream is exhausted. -/
theorem popMin_none :
    ∀ ss : List (List (String × LinguisticEntry)),
      popMin ss = none → ss.join = [] := by
  intro ss
  induction ss with
  | nil => intro _; rfl
  | cons s ss ih =>
    intro h
    cases s with
    | nil =>
      cases hrec : popMin ss with
      | none => simp [ih hrec]
      | some p =>
        obtain ⟨y, rs⟩ := p
        simp only [popMin, hrec] at h
        exact Option.noConfusion h
    | cons kv tl =>
      cases hrec : popMin ss with
      | none =>
        simp only [popMin, hrec] at h
        exact Option.noConfusion h
      | some p =>
        obtain ⟨kv', rs'⟩ := p
        simp only [popMin, hrec] at h
        by_cases hle : kv.1 ≤ kv'.1
        · rw [if_pos hle] at h; exact Option.noConfusion h
        · rw [if_neg hle] at h; exact Option.noConfusion h

/-- Popping permutes: the record plus the rest is the whole content. -/
theorem popMin_perm :
    ∀ (ss : List (List (String × LinguisticEntry))) x rest,
      popMin ss = some (x, rest) → (x :: rest.join).Perm ss.join := by
  intro ss
  induction ss with
  | nil => intro x rest h; exact Option.noConfusion h
  | cons s ss ih =>
    intro x rest h
    cases s with
    | nil =>
      cases hrec : popMin ss with
      | none =>
        simp only [popMin, hrec] at h
        exact Option.noConfusion h
      | some p =>
        obtain ⟨y, rs⟩ := p
        simp only [popMin, hrec, Option.some.injEq, Prod.mk.injEq] at h
        obtain ⟨rfl, rfl⟩ := h
        simpa using ih y rs hrec
    | cons kv tl =>
      cases hrec : popMin ss with
      | none =>
        simp only [popMin, hrec, Option.some.injEq, Prod.mk.injEq] at h
        obtain ⟨rfl, rfl⟩ := h
        simp
      | some p =>
        obtain ⟨kv', rs'⟩ := p
        simp only [popMin, hrec] at h
        by_cases hle : kv.1 ≤ kv'.1
        · rw [if_pos hle] at h
          simp only [Option.some.injEq, Prod.mk.injEq] at h
          obtain ⟨rfl, rfl⟩ := h
          simp
        · rw [if_neg hle] at h
          simp only [Option.some.injEq, Prod.mk.injEq] at h
          obtain ⟨rfl, rfl⟩ := h
          have hp := ih kv' rs' hrec
          simp only [List.join_cons, List.cons_append]
          exact (List.Perm.swap kv kv' _).trans
            ((List.Perm.cons kv List.perm_middle.symm).trans
              (List.Perm.cons kv (List.Perm.append_left tl hp)))

/-- Over strictly key-sorted streams, the popped record's key is minimal,
and the remaining streams stay sorted. -/
theorem popMin_min :
    ∀ (ss : List (List (String × LinguisticEntry))) x rest,
      (∀ s ∈ ss, s.Pairwise (fun p q => p.1 < q.1)) →
      popMin ss = some (x, rest) →
      (∀ y ∈ rest.join, x.1 ≤ y.1) ∧
      (∀ s ∈ rest, s.Pairwise (fun p q => p.1 < q.1)) := by
  intro ss
  induction ss with
  | nil => intro x rest _ h; exact Option.noConfusion h
  | cons s ss ih =>
    intro x rest hs h
    have hs0 := hs s (by simp)
    have hss : ∀ s' ∈ ss, s'.Pairwise (fun p q => p.1 < q.1) :=
      fun s' hmem => hs s' (by simp [hmem])
    cases s with
    | nil =>
      cases hrec : popMin ss with
      | none =>
        simp only [popMin, hrec] at h
        exact Option.noConfusion h
      | some p =>
        obtain ⟨y, rs⟩ := p
        simp only [popMin, hrec, Option.some.injEq, Prod.mk.injEq] at h
        obtain ⟨rfl, rfl⟩ := h
        obtain ⟨hmin, hsor⟩ := ih y rs hss hrec
        refine ⟨?_, ?_⟩
        · intro z hz
          simp only [List.join_cons, List.nil_append] at hz
          exact hmin z hz
        · intro s' hmem
          rcases List.mem_cons.mp hmem with rfl | hmem
          · exact List.Pairwise.nil
          · exact hsor s' hmem
    | cons kv tl =>
      have hhead : ∀ q ∈ tl, kv.1 < q.1 :=
        (List.pairwise_cons.mp hs0).1
      have htl : tl.Pairwise (fun p q => p.1 < q.1) :=
        (List.pairwise_cons.mp hs0).2
      cases hrec : popMin ss with
      | none =>
        simp only [popMin, hrec, Option.some.injEq, Prod.mk.injEq] at h
        obtain ⟨rfl, rfl⟩ := h
        have hjoin := popMin_none ss hrec
        refine ⟨?_, ?_⟩
        · intro z hz
          simp only [List.join_cons, hjoin, List.append_nil] at hz
          exact (hhead z hz).le
        · intro s' hmem
          rcases List.mem_cons.mp hmem with rfl | hmem
          · exact htl
          · exact hss s' hmem
      | some p =>
        obtain ⟨kv', rs'⟩ := p
        obtain ⟨hmin', hsor'⟩ := ih kv' rs' hss hrec
        have hperm := popMin_perm ss kv' rs' hrec
        simp only [popMin, hrec] at h
        by_cases hle : kv.1 ≤ kv'.1
        · rw [if_pos hle] at h
          simp only [Option.some.injEq, Prod.mk.injEq] at h
          obtain ⟨rfl, rfl⟩ := h
          refine ⟨?_, ?_⟩
          · intro z hz
            simp only [List.join_cons, List.mem_append] at hz
            rcases hz with hz | hz
            · exact (hhead z hz).le
            · rcases List.mem_cons.mp (hperm.mem_iff.mpr hz) with rfl | hz
              · exact hle
              · exact le_trans hle (hmin' z hz)
          · intro s' hmem
            rcases List.mem_cons.mp hmem with rfl | hmem
            · exact htl
            · exact hss s' hmem
        · rw [if_neg hle] at h
          simp only [Option.some.injEq, Prod.mk.injEq] at h
          obtain ⟨rfl, rfl⟩ := h
          have hlt : kv'.1 < kv.1 := lt_of_not_le hle
          refine ⟨?_, ?_⟩
          · intro z hz
            simp only [List.join_cons, List.mem_append,
              List.mem_cons] at hz
            rcases hz with (rfl | hz) | hz
            · exact hlt.le
            · exact (hlt.trans (hhead z hz)).le
            · exact hmin' z hz
          · intro s' hmem
            rcases List.mem_cons.mp hmem with rfl | hmem
            · exact hs0
            · exact hsor' s' hmem

/-- Unfolding the k-way merge at an exhausted stream set. -/
theorem kWayMerge_eq_none (ss : List (List (String × LinguisticEntry)))
    (h : popMin ss = none) : kWayMerge ss = [] := by
  unfold kWayMerge
  split
  · rfl
  · next x rest heq => rw [h] at heq; exact Option.noConfusion heq

/-- Unfolding the k-way merge at a popped record. -/
theorem kWayMerge_eq_some (ss : List (List (String × LinguisticEntry)))
    (x : String × LinguisticEntry)
    (rest : List (List (String × LinguisticEntry)))
    (h : popMin ss = some (x, rest)) :
    kWayMerge ss = x :: kWayMerge rest := by
  unfold kWayMerge
  split
  · next heq => rw [h] at heq; exact Option.noConfusion heq
  · next y r heq =>
    rw [h] at heq
    simp only [Option.some.injEq, Prod.mk.injEq] at heq
    obtain ⟨rfl, rfl⟩ := heq
    rw [kWayMerge]

/-- The k-way merge is a permutation of all the input records. -/
theorem kWayMerge_perm :
    ∀ ss : List (List (String × LinguisticEntry)),
      (kWayMerge ss).Perm ss.join := by
  suffices h : ∀ (n : Nat) (ss : List (List (String × LinguisticEntry))),
      totalLen ss = n → (kWayMerge ss).Perm ss.join from
    fun ss => h (totalLen ss) ss rfl
  intro n
  induction n using Nat.strong_induction_on with
  | _ n ih =>
    intro ss hn
    cases hpop : popMin ss with
    | none => rw [kWayMerge_eq_none ss hpop, popMin_none ss hpop]
    | some p =>
      obtain ⟨x, rest⟩ := p
      rw [kWayMerge_eq_some ss x rest hpop]
      have hlen := popMin_totalLen ss x rest hpop
      have hperm := ih (totalLen rest) (by omega) rest rfl
      exact (List.Perm.cons x hperm).trans (popMin_perm ss x rest hpop)

/-- Over strictly key-sorted streams, the k-way merge's keys are weakly
sorted. -/
theorem kWayMerge_sorted :
    ∀ ss : List (List (String × LinguisticEntry)),
      (∀ s ∈ ss, s.Pairwise (fun p q => p.1 < q.1)) →
      (kWayMerge ss).Pairwise (fun p q => p.1 ≤ q.1) := by
  suffices h : ∀ (n : Nat) (ss : List (List (String × LinguisticEntry))),
      totalLen ss = n →
      (∀ s ∈ ss, s.Pairwise (fun p q => p.1 < q.1)) →
      (kWayMerge ss).Pairwise (fun p q => p.1 ≤ q.1) from
    fun ss hs => h (totalLen ss) ss rfl hs
  intro n
  induction n using Nat.strong_induction_on with
  | _ n ih =>
    intro ss hn hs
    cases hpop : popMin ss with
    | none => rw [kWayMerge_eq_none ss hpop]; exact List.Pairwise.nil
    | some p =>
      obtain ⟨x, rest⟩ := p
      rw [kWayMerge_eq_some ss x rest hpop]
      have hlen := popMin_totalLen ss x rest hpop
      obtain ⟨hmin, hsor⟩ := popMin_min ss x rest hs hpop
      refine List.pairwise_cons.mpr ⟨?_, ?_⟩
      · intro y hy
        exact hmin y ((kWayMerge_perm rest).mem_iff.mp hy)
      · exact ih (totalLen rest) (by omega) rest rfl hsor

/-- `itertools.groupby(..., key=lambda x: x[0])` over the merged stream:
group consecutive records sharing a key (`merger.py` line 219). -/
def groupByKey : List (String × LinguisticEntry) →
    List (String × List LinguisticEntry)
  | [] => []
  | (k, e) :: rest =>
    match groupByKey rest with
    | [] => [(k, [e])]
    | (k', es) :: gs =>
      if k = k' then (k, e :: es) :: gs else (k, [e]) :: (k', es) :: gs

/-- Flatten groups back into the record stream. -/
def ungroup (G : List (String × List LinguisticEntry)) :
    List (String × LinguisticEntry) :=
  G.bind (fun g => g.2.map (fun e => (g.1, e)))

/-- Grouping loses nothing: ungrouping restores the exact stream. -/
theorem ungroup_groupByKey :
    ∀ l : List (String × LinguisticEntry), ungroup (groupByKey l) = l := by
  intro l
  induction l with
  | nil => rfl
  | cons p rest ih =>
    obtain ⟨k, e⟩ := p
    cases hg : groupByKey rest with
    | nil =>
      have hrest : rest = [] := by rw [← ih, hg]; rfl
      subst hrest
      rfl
    | cons g gs =>
      obtain ⟨k', es⟩ := g
      rw [hg] at ih
      by_cases hk : k = k'
      · subst hk
        have hgb : groupByKey ((k, e) :: rest) = (k, e :: es) :: gs := by
          simp [groupByKey, hg]
        have h2 : ungroup ((k, e :: es) :: gs) =
            (k, e) :: ungroup ((k, es) :: gs) := by
          simp [ungroup]
        rw [hgb, h2, ih]
      · have hgb : groupByKey ((k, e) :: rest) =
            (k, [e]) :: (k', es) :: gs := by
          simp [groupByKey, hg, hk]
        have h2 : ungroup ((k, [e]) :: (k', es) :: gs) =
            (k, e) :: ungroup ((k', es) :: gs) := by
          simp [ungroup]
        rw [hgb, h2, ih]

/-- Every group is non-empty and its members come from the stream under
the group's key. -/
theorem groupByKey_sound :
    ∀ (l : List (String × LinguisticEntry))
      (g : String × List LinguisticEntry), g ∈ groupByKey l →
      g.2 ≠ [] ∧ ∀ e ∈ g.2, (g.1, e) ∈ l := by
  intro l
  induction l with
  | nil => intro g hg; simp [groupByKey] at hg
  | cons p rest ih =>
    obtain ⟨k, e⟩ := p
    intro g hg
    cases hgk : groupByKey rest with
    | nil =>
      simp only [groupByKey, hgk, List.mem_singleton] at hg
      subst hg
      exact ⟨by simp, by simp⟩
    | cons g0 gs =>
      obtain ⟨k', es⟩ := g0
      simp only [groupByKey, hgk] at hg
      by_cases hk : k = k'
      · subst hk
        rw [if_pos rfl] at hg
        rcases List.mem_cons.mp hg with rfl | hg
        · refine ⟨by simp, ?_⟩
          intro e' he'
          rcases List.mem_cons.mp he' with rfl | he'
          · exact List.mem_cons_self _ _
          · have := (ih (k, es) (by rw [hgk]; simp)).2 e' he'
            exact List.mem_cons_of_mem _ this
        · have := ih g (by rw [hgk]; simp [hg])
          exact ⟨this.1, fun e' he' =>
            List.mem_cons_of_mem _ (this.2 e' he')⟩
      · rw [if_neg hk] at hg
        rcases List.mem_cons.mp hg with rfl | hg
        · exact ⟨by simp, by simp⟩
        · have := ih g (by rw [hgk]; exact hg)
          exact ⟨this.1, fun e' he' =>
            List.mem_cons_of_mem _ (this.2 e' he')⟩

/-- Over a weakly key-sorted stream the group keys are strictly
increasing. -/
theorem groupByKey_keys_sorted :
    ∀ l : List (String × LinguisticEntry),
      l.Pairwise (fun p q => p.1 ≤ q.1) →
      ((groupByKey l).map Prod.fst).Pairwise (· < ·) := by
  intro l
  induction l with
  | nil => intro _; exact List.Pairwise.nil
  | cons p rest ih =>
    obtain ⟨k, e⟩ := p
    intro hs
    have hhead : ∀ q ∈ rest, k ≤ q.1 := (List.pairwise_cons.mp hs).1
    have hrest := (List.pairwise_cons.mp hs).2
    cases hgk : groupByKey rest with
    | nil =>
      simp [groupByKey, hgk]
    | cons g0 gs =>
      obtain ⟨k', es⟩ := g0
      have hkeys := ih hrest
      rw [hgk] at hkeys
      simp only [List.map_cons] at hkeys
      have hk'gs : ∀ x ∈ gs.map Prod.fst, k' < x :=
        (List.pairwise_cons.mp hkeys).1
      have hgs := (List.pairwise_cons.mp hkeys).2
      have hkk' : k ≤ k' := by
        obtain ⟨hne, hmem⟩ := groupByKey_sound rest (k', es)
          (by rw [hgk]; simp)
        obtain ⟨e', he'⟩ := List.exists_mem_of_ne_nil es hne
        exact hhead (k', e') (hmem e' he')
      simp only [groupByKey, hgk]
      by_cases hk : k = k'
      · rw [if_pos hk]
        simp only [List.map_cons]
        refine List.pairwise_cons.mpr ⟨?_, hgs⟩
        intro x hx
        exact lt_of_le_of_lt (hk ▸ hkk') (hk'gs x hx)
      · rw [if_neg hk]
        simp only [List.map_cons]
        refine List.pairwise_cons.mpr ⟨?_, hkeys⟩
        intro x hx
        rcases List.mem_cons.mp hx with rfl | hx
        · exact lt_of_le_of_ne hkk' hk
        · exact lt_of_le_of_lt hkk' (hk'gs x hx)

/-- A record is in the stream exactly when its entry sits in the group of
its key. -/
theorem mem_iff_group (l : List (String × LinguisticEntry)) (k : String)
    (e : LinguisticEntry) :
    (k, e) ∈ l ↔ ∃ g ∈ groupByKey l, g.1 = k ∧ e ∈ g.2 := by
  conv_lhs => rw [← ungroup_groupByKey l]
  simp only [ungroup, List.mem_bind, List.mem_map, Prod.mk.injEq]
  constructor
  · rintro ⟨g, hg, e', he', rfl, rfl⟩
    exact ⟨g, hg, rfl, he'⟩
  · rintro ⟨g, hg, rfl, he⟩
    exact ⟨g, hg, e, he, rfl, rfl⟩

/-- The streaming merge of `merge_caches_and_save_lmdb` (`merger.py`
lines 217-242): k-way merge the sorted per-source streams, group
consecutive records per lemma, merge each group with the per-lemma fold
(`merge_linguistic_dicts` over singleton dicts; a one-entry group is
stored directly, which the fold also yields), and emit one record per
group.  The code's `txn.get(key)` re-merge branch never fires: the target
store starts empty and each lemma forms exactly one group. -/
def merge_caches_streaming
    (streams : List (List (String × LinguisticEntry))) :
    List (String × LinguisticEntry) :=
  (groupByKey (kWayMerge streams)).filterMap
    (fun g => (per_lemma_merge g.2).map (fun e => (g.1, e)))

/-- With all groups non-empty, the emitted keys are the group keys. -/
theorem merged_keys :
    ∀ G : List (String × List LinguisticEntry),
      (∀ g ∈ G, g.2 ≠ []) →
      (G.filterMap (fun g =>
        (per_lemma_merge g.2).map (fun e => (g.1, e)))).map Prod.fst =
      G.map Prod.fst := by
  intro G
  induction G with
  | nil => intro _; rfl
  | cons g G ih =>
    intro h
    obtain ⟨k, es⟩ := g
    have hne := h (k, es) (by simp)
    cases es with
    | nil => exact absurd rfl hne
    | cons e es' =>
      have hpm : per_lemma_merge (e :: es') =
          some (es'.foldl mergeInto e) := rfl
      simp only [List.filterMap_cons, hpm, Option.map_some',
        List.map_cons]
      rw [ih (fun g hg => h g (by simp [hg]))]

/-- Membership in the merged output names a group with that key whose
per-lemma merge is the entry. -/
theorem mem_merged (G : List (String × List LinguisticEntry)) (k : String)
    (m : LinguisticEntry) :
    (k, m) ∈ G.filterMap (fun g =>
        (per_lemma_merge g.2).map (fun e => (g.1, e))) ↔
      ∃ g ∈ G, g.1 = k ∧ per_lemma_merge g.2 = some m := by
  rw [List.mem_filterMap]
  constructor
  · rintro ⟨g, hg, hf⟩
    rcases Option.map_eq_some'.mp hf with ⟨a, ha, hae⟩
    simp only [Prod.mk.injEq] at hae
    exact ⟨g, hg, hae.1, by rw [ha, hae.2]⟩
  · rintro ⟨g, hg, rfl, hm⟩
    exact ⟨g, hg, by rw [hm]; rfl⟩

/-- Every contributing entry's forms survive the per-lemma fold. -/
theorem fold_mergeInto_forms :
    ∀ (rest : List LinguisticEntry) (acc : LinguisticEntry)
      (f : WordForm),
      (f ∈ acc.forms ∨ ∃ x ∈ rest, f ∈ x.forms) →
      f ∈ (rest.foldl mergeInto acc).forms := by
  intro rest
  induction rest with
  | nil =>
    intro acc f h
    rcases h with h | ⟨x, hx, _⟩
    · exact h
    · simp at hx
  | cons y rest ih =>
    intro acc f h
    simp only [List.foldl_cons]
    rcases h with h | ⟨x, hx, hf⟩
    · exact ih _ f (Or.inl ((mem_mergeForms f acc.forms y.forms).mpr
        (Or.inl h)))
    · rcases List.mem_cons.mp hx with rfl | hx
      · exact ih _ f (Or.inl ((mem_mergeForms f acc.forms x.forms).mpr
          (Or.inr hf)))
      · exact ih _ f (Or.inr ⟨x, hx, hf⟩)

/-- The per-lemma merged entry's form list contains every contributing
entry's forms. -/
theorem per_lemma_merge_forms :
    ∀ (es : List LinguisticEntry) (m : LinguisticEntry),
      per_lemma_merge es = some m →
      ∀ e ∈ es, ∀ f ∈ e.forms, f ∈ m.forms := by
  intro es m h e he f hf
  cases es with
  | nil => exact Option.noConfusion h
  | cons e0 rest =>
    simp only [per_lemma_merge, Option.some.injEq] at h
    subst h
    rcases List.mem_cons.mp he with rfl | he
    · exact fold_mergeInto_forms rest e f (Or.inl hf)
    · exact fold_mergeInto_forms rest e0 f (Or.inr ⟨e, he, hf⟩)

/-- With duplicate-free keys, a key determines its group. -/
theorem nodup_key_unique :
    ∀ G : List (String × List LinguisticEntry),
      (G.map Prod.fst).Nodup →
      ∀ g ∈ G, ∀ g' ∈ G, g.1 = g'.1 → g = g' := by
  intro G
  induction G with
  | nil => intro _ g hg; simp at hg
  | cons g0 G ih =>
    intro hnd g hg g' hg' he
    simp only [List.map_cons, List.nodup_cons] at hnd
    rcases List.mem_cons.mp hg with h1 | h1
    · rcases List.mem_cons.mp hg' with h2 | h2
      · rw [h1, h2]
      · exfalso
        have hmem : g'.1 ∈ G.map Prod.fst :=
          List.mem_map_of_mem Prod.fst h2
        rw [← he, h1] at hmem
        exact hnd.1 hmem
    · rcases List.mem_cons.mp hg' with h2 | h2
      · exfalso
        have hmem : g.1 ∈ G.map Prod.fst :=
          List.mem_map_of_mem Prod.fst h1
        rw [he, h2] at hmem
        exact hnd.1 hmem
      · exact ih hnd.2 g h1 g' h2 he

/-- C5: over sorted input stores, the streaming merge emits every
headword that occurs in at least one input exactly once (the output keys
are duplicate-free and are exactly the union of the input keys), and each
emitted entry's form list contains every contributing input entry's forms
for that headword. -/
theorem c5_merge_totality :
    ∀ streams : List (List (String × LinguisticEntry)),
      (∀ s ∈ streams, s.Pairwise (fun p q => p.1 < q.1)) →
      ∀ k : String,
        ((merge_caches_streaming streams).map Prod.fst).Nodup ∧
        (k ∈ (merge_caches_streaming streams).map Prod.fst ↔
          ∃ s ∈ streams, k ∈ s.map Prod.fst) ∧
        (∀ s ∈ streams, ∀ e : LinguisticEntry, (k, e) ∈ s →
          ∀ m : LinguisticEntry,
            (k, m) ∈ merge_caches_streaming streams →
            ∀ f ∈ e.forms, f ∈ m.forms) := by
  intro streams hs k
  have hLsorted := kWayMerge_sorted streams hs
  have hGkeys := groupByKey_keys_sorted (kWayMerge streams) hLsorted
  have hGnodup : ((groupByKey (kWayMerge streams)).map Prod.fst).Nodup :=
    hGkeys.imp (fun h => ne_of_lt h)
  have hne : ∀ g ∈ groupByKey (kWayMerge streams), g.2 ≠ [] :=
    fun g hg => (groupByKey_sound (kWayMerge streams) g hg).1
  have hkeys : (merge_caches_streaming streams).map Prod.fst =
      (groupByKey (kWayMerge streams)).map Prod.fst :=
    merged_keys (groupByKey (kWayMerge streams)) hne
  have hmemL : ∀ e : LinguisticEntry, ((k, e) ∈ kWayMerge streams ↔
      ∃ s ∈ streams, (k, e) ∈ s) := by
    intro e
    rw [(kWayMerge_perm streams).mem_iff, List.mem_join]
  refine ⟨?_, ?_, ?_⟩
  · rw [hkeys]
    exact hGnodup
  · rw [hkeys]
    constructor
    · intro hk
      rcases List.mem_map.mp hk with ⟨g, hg, rfl⟩
      obtain ⟨hne', hmem⟩ :=
        groupByKey_sound (kWayMerge streams) g hg
      obtain ⟨e, he⟩ := List.exists_mem_of_ne_nil g.2 hne'
      obtain ⟨s, hsm, hm⟩ := (hmemL e).mp (hmem e he)
      exact ⟨s, hsm, List.mem_map_of_mem Prod.fst hm⟩
    · rintro ⟨s, hsm, hk⟩
      rcases List.mem_map.mp hk with ⟨p, hp, rfl⟩
      have hinL : (p.1, p.2) ∈ kWayMerge streams :=
        (hmemL p.2).mpr ⟨s, hsm, by simpa using hp⟩
      rcases (mem_iff_group (kWayMerge streams) p.1 p.2).mp hinL with
        ⟨g, hg, hgk, _⟩
      exact hgk ▸ List.mem_map_of_mem Prod.fst hg
  · intro s hsm e he m hm f hf
    have hinL : (k, e) ∈ kWayMerge streams := (hmemL e).mpr ⟨s, hsm, he⟩
    rcases (mem_iff_group (kWayMerge streams) k e).mp hinL with
      ⟨g, hg, hgk, hge⟩
    rcases (mem_merged (groupByKey (kWayMerge streams)) k m).mp hm with
      ⟨g', hg', hgk', hgm⟩
    have : g = g' := nodup_key_unique _ hGnodup g hg g' hg'
      (by rw [hgk, hgk'])
    subst this
    exact per_lemma_merge_forms g.2 m hgm e hge f hf

/-- Two sorted single-record input stores sharing headword `a`. -/
def c5Streams : List (List (String × LinguisticEntry)) :=
  [[("a", entryA)], [("a", entryB)]]

/-- Witness for the merge-totality theorem at two singleton stores. -/
theorem c5_merge_totality_witness :
    (∀ s ∈ c5Streams, s.Pairwise (fun p q => p.1 < q.1)) ∧
    (((merge_caches_streaming c5Streams).map Prod.fst).Nodup ∧
     ("a" ∈ (merge_caches_streaming c5Streams).map Prod.fst ↔
       ∃ s ∈ c5Streams, "a" ∈ s.map Prod.fst) ∧
     (∀ s ∈ c5Streams, ∀ e : LinguisticEntry, ("a", e) ∈ s →
       ∀ m : LinguisticEntry,
         ("a", m) ∈ merge_caches_streaming c5Streams →
         ∀ f ∈ e.forms, f ∈ m.forms)) :=
  ⟨by
    intro s hs
    simp only [c5Streams, List.mem_cons, List.not_mem_nil, or_false] at hs
    rcases hs with rfl | rfl <;> exact List.pairwise_singleton _ _,
   c5_merge_totality c5Streams
    (by
      intro s hs
      simp only [c5Streams, List.mem_cons, List.not_mem_nil,
        or_false] at hs
      rcases hs with rfl | rfl <;> exact List.pairwise_singleton _ _)
    "a"⟩
